import Mathlib

/-!
Verification of the ABI type-resolution and typed-data-tree engine of
`web3/_utils/abi.py` (contract-ABI resolution layer).

Python values are dynamically typed, so the embedding works over a universal
value type `PyVal`.  Functions that can raise a Python exception return
`Option` (`none` = an exception escapes) or `Except` when the exception kind
matters.  External capabilities from `eth_abi` / `eth_utils` (the scalar
codec, hex helpers, ENS recognition) are either parameters (`Ext`) or are
modelled from the specification, as marked in doc comments.
-/

set_option maxRecDepth 4096

namespace Web3Abi


/-- A universal dynamic (Python) value: integers, strings, byte strings,
booleans, `None`, lists, tuples, string-keyed dicts (as insertion-ordered
association lists), and `ABITypedData` nodes (`typed`), whose first field is
always an ABI type string or `None` in this code base. -/
inductive PyVal where
  | intV (n : Int)
  | strV (s : String)
  | bytesV (b : List Nat)
  | boolV (b : Bool)
  | noneV
  | listV (xs : List PyVal)
  | tupleV (xs : List PyVal)
  | dictV (kvs : List (String × PyVal))
  | typed (t : Option String) (data : PyVal)

/-- `isinstance(v, (list, tuple))`, which is also what `eth_utils.is_list_like`
returns on the value shapes occurring here (strings, bytes, dicts and scalars
are not list-like). -/
def PyVal.isListOrTuple : PyVal → Bool
  | .listV _ => true
  | .tupleV _ => true
  | _ => false

/-- `isinstance(v, tuple)`. -/
def PyVal.isTuple : PyVal → Bool
  | .tupleV _ => true
  | _ => false

/-- Python `s.strip("()")`: removes every leading and every trailing character
that is `(` or `)`. -/
def pyStrip (s : String) : String :=
  String.mk (((s.toList.dropWhile fun c => c == '(' || c == ')').reverse.dropWhile
    fun c => c == '(' || c == ')').reverse)

/-- `t[0] == "("` (Python indexes raise on the empty string; this returns
`false` there, a case that cannot return normally in the source either). -/
def startsParen (s : String) : Bool :=
  match s.toList with
  | '(' :: _ => true
  | _ => false

/-- Python `s.split(sep)` for a one-character separator, on char lists:
always returns at least one (possibly empty) fragment. -/
def splitCh (sep : Char) : List Char → List (List Char)
  | [] => [[]]
  | c :: rest =>
    match splitCh sep rest with
    | [] => if c = sep then [[], []] else [[c]]
    | r :: rs => if c = sep then [] :: r :: rs else (c :: r) :: rs

/-- Numeric value of a digit sequence (most significant first). -/
def digitsVal (cs : List Char) : Nat :=
  cs.foldl (fun a c => 10 * a + (c.toNat - '0'.toNat)) 0

/-- Python `s.split(",")`. -/
def pySplitComma (s : String) : List String :=
  (splitCh ',' s.toList).map String.mk

/-- Python `repr` of a one-character string (as produced when iterating a
`str`), e.g. `repr('t') = "'t'"`. -/
def pyRepr1 (c : Char) : String := "'" ++ String.mk [c] ++ "'"

/-- Python `repr` of one array-suffix entry of an `arrlist`:
`repr([]) = "[]"`, `repr([n]) = "[n]"`. -/
def reprArrEntry : Option Nat → String
  | none => "[]"
  | some n => "[" ++ toString n ++ "]"

/-- `collapse_type(base, sub, arrlist)` from src (line 197-198) on a regular
`arrlist` (a list of array suffixes): `base + str(sub) + ''.join(map(repr, arrlist))`. -/
def collapse_type (b s : String) (arr : List (Option Nat)) : String :=
  b ++ s ++ String.join (arr.map reprArrEntry)

/-- A canonical digit sequence: nonempty, all digits, no leading zero. -/
def canonDigits (cs : List Char) : Bool :=
  !cs.isEmpty && cs.all Char.isDigit && (cs.headD '0' ≠ '0' || cs == ['0'])

/-- Parses one array-suffix fragment as produced by splitting on `[`:
`"]"` is a dynamic suffix, `"N]"` a fixed one.  Helper of `process_type`. -/
def parseArrSuffix (cs : List Char) : Option (Option Nat) :=
  if cs = [']'] then some none
  else if cs.getLast? = some ']' ∧ canonDigits cs.dropLast then
    some (some (digitsVal cs.dropLast))
  else none

/-- Parses and validates a base type with its numeric width, normalizing bare
`uint`/`int` to width 256 (eth_abi grammar normalization).  Helper of
`process_type`. -/
def parseBase (cs : List Char) : Option (String × String) :=
  let letters := String.mk (cs.takeWhile Char.isAlpha)
  let digits := cs.drop (cs.takeWhile Char.isAlpha).length
  if ¬ (digits.all Char.isDigit) then none
  else if letters = "uint" ∨ letters = "int" then
    (if digits = [] then some (letters, "256")
     else
       if canonDigits digits ∧ digitsVal digits % 8 = 0 ∧ 8 ≤ digitsVal digits ∧
           digitsVal digits ≤ 256 then
         some (letters, String.mk digits)
       else none)
  else if letters = "bytes" then
    (if digits = [] then some (letters, "")
     else
       if canonDigits digits ∧ 1 ≤ digitsVal digits ∧ digitsVal digits ≤ 32 then
         some (letters, String.mk digits)
       else none)
  else if letters = "address" ∨ letters = "bool" ∨ letters = "string" then
    (if digits = [] then some (letters, "") else none)
  else none

/-- Modelled from the spec: the external type decomposer
`decompose_type(type_string) -> (base, sub, arrlist)` (spec §6, §4.1), i.e.
`process_type` whose body in src (lines 161-195) delegates to the external
`eth_abi` grammar, which is not part of this repository.  It normalizes bare
`uint`/`int` to the 256-bit width, validates widths (`uint8..uint256` step 8,
`bytes1..bytes32`), rejects tuple type strings and malformed strings
(`none` = raised `ValueError`). -/
def process_type (t : String) : Option (String × String × List (Option Nat)) :=
  match splitCh '[' t.toList with
  | [] => none
  | base :: suffixes =>
    match parseBase base, suffixes.mapM parseArrSuffix with
    | some (b, s), some arrs => some (b, s, arrs)
    | _, _ => none

/-- The external boundary capabilities consumed by `is_encodable`
(spec §6): the scalar codec check, ENS recognition and hex/text helpers. -/
structure Ext where
  ethIsEncodable : String → PyVal → Bool
  isEnsName : PyVal → Bool
  isHex : String → Bool
  toBytes : String → List Nat
  toText : List Nat → Option String

/-- Hexadecimal digit test. -/
def isHexDigit (c : Char) : Bool :=
  c.isDigit || ('a' ≤ c && c ≤ 'f') || ('A' ≤ c && c ≤ 'F')

/-- Numeric value of a hex digit. -/
def hexVal (c : Char) : Nat :=
  if c.isDigit then c.toNat - '0'.toNat
  else if 'a' ≤ c ∧ c ≤ 'f' then c.toNat - 'a'.toNat + 10
  else if 'A' ≤ c ∧ c ≤ 'F' then c.toNat - 'A'.toNat + 10
  else 0

/-- Decodes an even-length hex digit sequence into bytes. -/
def hexPairsToBytes : List Char → List Nat
  | c1 :: c2 :: rest => (16 * hexVal c1 + hexVal c2) :: hexPairsToBytes rest
  | _ => []

/-- Modelled from the spec: a concrete instance of the external capabilities
(spec §6), used to evaluate claims at concrete inputs.  The scalar codec
accepts in-range integers for `uintN`/`intN`, booleans for `bool`,
byte strings of exact length for `bytesN` and any for `bytes`, strings for
`string`, and 40-hex-digit `0x` strings for `address`; `is_ens_name`
recognizes `.eth` names; `is_hex`/`to_bytes`/`to_text` are the evident
hex and ASCII codecs. -/
def extModel : Ext where
  ethIsEncodable := fun t v =>
    match process_type t, v with
    | some ("uint", s, []), .intV n => decide (0 ≤ n ∧ n < (2 : Int) ^ digitsVal s.toList)
    | some ("int", s, []), .intV n =>
      decide (-((2 : Int) ^ (digitsVal s.toList - 1)) ≤ n ∧
        n < (2 : Int) ^ (digitsVal s.toList - 1))
    | some ("bool", _, []), .boolV _ => true
    | some ("bytes", "", []), .bytesV _ => true
    | some ("bytes", s, []), .bytesV b => decide (b.length = digitsVal s.toList)
    | some ("string", _, []), .strV _ => true
    | some ("address", _, []), .strV a =>
      (match a.toList with
       | '0' :: 'x' :: rest => decide (rest.length = 40) && rest.all isHexDigit
       | _ => false)
    | _, _ => false
  isEnsName := fun v =>
    match v with
    | .strV s =>
      (match s.toList.reverse with
       | 'h' :: 't' :: 'e' :: '.' :: _ :: _ => true
       | _ => false)
    | _ => false
  isHex := fun s =>
    match s.toList with
    | '0' :: 'x' :: rest => rest.all isHexDigit
    | _ => false
  toBytes := fun s => hexPairsToBytes (s.toList.drop 2)
  toText := fun b =>
    if b.all (· < 128) then some (String.mk (b.map fun n => Char.ofNat n)) else none

mutual

/-- Embeds `is_encodable` from src lines 201-254.  `none` models a raised
exception (a `ValueError` escaping from `process_type` on a malformed
non-tuple type string; the `isinstance(_type, str)` guard cannot fire in this
typed embedding).  The tuple branch splits the stripped type string at every
comma (`_type.strip("()").split(",")`) and evaluates the full list
comprehension before `all`, so an exception in any component propagates; the
array branch is a short-circuiting generator. -/
def is_encodable (ext : Ext) (t : String) (v : PyVal) : Option Bool :=
  if startsParen t then
    match v with
    | .listV xs =>
      if (pySplitComma (pyStrip t)).length = xs.length then
        isEncAllPairs ext (pySplitComma (pyStrip t)) xs
      else some false
    | .tupleV xs =>
      if (pySplitComma (pyStrip t)).length = xs.length then
        isEncAllPairs ext (pySplitComma (pyStrip t)) xs
      else some false
    | _ => some false
  else
    match process_type t with
    | none => none
    | some (b, s, arr) =>
      if arr ≠ [] then
        match v with
        | .listV xs =>
          if (arr.getLast?.getD none).elim false fun n => xs.length ≠ n then some false
          else isEncAllGen ext (collapse_type b s arr.dropLast) xs
        | .tupleV xs =>
          if (arr.getLast?.getD none).elim false fun n => xs.length ≠ n then some false
          else isEncAllGen ext (collapse_type b s arr.dropLast) xs
        | _ => some false
      else if b = "address" && ext.isEnsName v then some true
      else
        match b, v with
        | "bytes", .strV sv =>
          if ext.isHex sv && sv.length % 2 == 0 then
            some (ext.ethIsEncodable t (.bytesV (ext.toBytes sv)))
          else some false
        | "string", .bytesV bv =>
          (match ext.toText bv with
           | none => some false
           | some sv => some (ext.ethIsEncodable t (.strV sv)))
        | _, _ => some (ext.ethIsEncodable t v)
termination_by structural v

/-- `all([is_encodable(c, v) for c, v in zip(components, values)])`: the list
comprehension is fully evaluated, so any raise wins over a `False`. -/
def isEncAllPairs (ext : Ext) : List String → List PyVal → Option Bool
  | _, [] => some true
  | [], _ :: _ => some true
  | c :: cs, x :: xs =>
    match is_encodable ext c x with
    | none => none
    | some b =>
      match isEncAllPairs ext cs xs with
      | none => none
      | some rest => some (b && rest)
termination_by structural _cs xs => xs

/-- `all(is_encodable(sub_type, sub_value) for sub_value in value)`: a
generator, so `all` short-circuits at the first `False`. -/
def isEncAllGen (ext : Ext) (t : String) : List PyVal → Option Bool
  | [] => some true
  | x :: xs =>
    match is_encodable ext t x with
    | none => none
    | some false => some false
    | some true => isEncAllGen ext t xs
termination_by structural xs => xs

end

/-! ## ABI descriptors, tuple collapsing, argument merging -/

/-- A parameter descriptor from an ABI JSON entry: `name`, `type`, and the
`components` of tuple-typed parameters (the `components` key of a non-tuple
descriptor is never read by the embedded functions, so absence is modelled as
`[]`; the `type` value is a string in every descriptor this code receives). -/
inductive AbiInput where
  | mk (name : String) (type : String) (components : List AbiInput)

/-- The `name` field. -/
def AbiInput.name : AbiInput → String
  | .mk n _ _ => n

/-- The `type` field. -/
def AbiInput.type : AbiInput → String
  | .mk _ t _ => t

/-- The `components` field. -/
def AbiInput.components : AbiInput → List AbiInput
  | .mk _ _ c => c

/-- Python `",".join(ss)`. -/
def joinComma : List String → String
  | [] => ""
  | [s] => s
  | s :: rest => s ++ "," ++ joinComma rest

mutual

/-- Embeds `collapse_if_tuple` (src lines 57-93): a non-`tuple` type string is
returned unchanged, a tuple descriptor is rendered as the parenthesized
comma-joined recursive collapse of its components. -/
def collapse_if_tuple : AbiInput → String
  | .mk _ t comps =>
    if t ≠ "tuple" then t
    else "(" ++ joinComma (collapseComponents comps) ++ ")"
termination_by structural a => a

/-- Recursive collapse of a component list. -/
def collapseComponents : List AbiInput → List String
  | [] => []
  | a :: rest => collapse_if_tuple a :: collapseComponents rest
termination_by structural l => l

end

/-- Splits a character list at depth-0 commas, tracking parenthesis depth. -/
def splitTopAux : List Char → Nat → List Char → List (List Char)
  | [], _, cur => [cur.reverse]
  | c :: rest, d, cur =>
    if c = ',' ∧ d = 0 then cur.reverse :: splitTopAux rest 0 []
    else splitTopAux rest (if c = '(' then d + 1 else if c = ')' then d - 1 else d) (c :: cur)

/-- Modelled from the spec: `get_tuple_component_types` (spec §4.2) is exposed
by this module and imported by its tests, but its definition is not under
`src/`.  Given an already-collapsed tuple type string (enclosed in
parentheses), it removes the enclosing pair and splits the inside at
top-level commas only, never inside a nested tuple. -/
def get_tuple_component_types (t : String) : List String :=
  (splitTopAux (t.toList.drop 1).dropLast 0 []).map String.mk

/-- A function/constructor/fallback/event descriptor: its `type`, optional
`name`, and optional `inputs` (absent on some fallback entries). -/
structure FnABI where
  type : String
  name : Option String
  inputs : Option (List AbiInput)

/-- The exception raised by `merge_args_and_kwargs`: three `TypeError` shapes
plus the `KeyError` that escapes when the argument-count message is formatted
for a descriptor without an `inputs` key. -/
inductive MergeErr where
  | argCount
  | missingInputsKey
  | multipleValues
  | unexpectedKeyword
deriving DecidableEq

/-- Python dict insert: first occurrence keeps its position, the stored value
is the last one written. -/
def dictUpsert : List (String × PyVal) → String → PyVal → List (String × PyVal)
  | [], k, v => [(k, v)]
  | (k0, v0) :: rest, k, v =>
    if k0 = k then (k0, v) :: rest else (k0, v0) :: dictUpsert rest k v

/-- `{arg_abi['name']: arg for arg_abi, arg in zip(function_abi['inputs'], args)}`. -/
def buildArgsAsKwargs (ins : List AbiInput) (args : List PyVal) : List (String × PyVal) :=
  (ins.zip args).foldl (fun acc p => dictUpsert acc p.1.name p.2) []

/-- Stable insertion into an already key-sorted list: the new element goes
after every element with a key less than or equal to its own. -/
def stableInsert (key : α → Nat) (x : α) : List α → List α
  | [] => [x]
  | y :: ys => if key y ≤ key x then y :: stableInsert key x ys else x :: y :: ys

/-- A stable sort by a numeric key, as Python's `sorted` guarantees. -/
def stableSortBy (key : α → Nat) (l : List α) : List α :=
  l.foldl (fun acc x => stableInsert key x acc) []

/-- Embeds `merge_args_and_kwargs` (src lines 401-454).  `kwargs` is a Python
dict, modelled as an association list with distinct keys.  The final ordering
is Python's stable `sorted` by `sorted_arg_names.index(name)`
(`List.findIdx` is that first-occurrence index). -/
def merge_args_and_kwargs (fa : FnABI) (args : List PyVal)
    (kwargs : List (String × PyVal)) : Except MergeErr (List PyVal) :=
  if args.length + kwargs.length ≠ (fa.inputs.getD []).length then
    match fa.inputs with
    | none => .error .missingInputsKey
    | some _ => .error .argCount
  else if kwargs.isEmpty then .ok args
  else
    let ins := fa.inputs.getD []
    let args_as_kwargs := buildArgsAsKwargs ins args
    if args_as_kwargs.any fun kv => kwargs.any fun kw => kw.1 = kv.1 then
      .error .multipleValues
    else
      let sorted_arg_names := ins.map AbiInput.name
      if kwargs.any fun kw => ¬ sorted_arg_names.contains kw.1 then
        .error .unexpectedKeyword
      else
        .ok ((stableSortBy (fun kv => sorted_arg_names.findIdx fun n => n = kv.1)
          (kwargs ++ args_as_kwargs)).map fun kv => kv.2)

/-- Exceptions escaping `get_abi_inputs`: `TypeError` (from `zip` over a
non-iterable, or the explicit unknown-value-type raise) and `KeyError` (a
dict value missing a component name, or a descriptor without `inputs`). -/
inductive AbiErr where
  | typeErr
  | keyErr
deriving DecidableEq

/-- Python `d[k]` on a string-keyed dict. -/
def lookupStr (kvs : List (String × PyVal)) (k : String) : Option PyVal :=
  (kvs.find? fun kv => kv.1 == k).map fun kv => kv.2

/-- One tuple-typed input of `get_abi_inputs` (src lines 363-378): iterates
`zip(components, arg_value)` (truncating at the shorter; iterating a dict
yields its keys), reads component values by name for a mapping and by
position for a tuple, and raises `TypeError` for any other `arg_value`
shape (immediately if `arg_value` is not iterable, otherwise on the first
iteration; an empty `zip` runs no iteration and raises nothing). -/
def tupleComponentValues (comps : List AbiInput) (v : PyVal) :
    Except AbiErr (List String × List PyVal) :=
  match v with
  | .dictV kvs =>
    let used := comps.take (min comps.length kvs.length)
    (match used.mapM fun c => lookupStr kvs c.name with
     | some vals => .ok (used.map AbiInput.type, vals)
     | none => .error .keyErr)
  | .tupleV xs =>
    .ok ((comps.take (min comps.length xs.length)).map AbiInput.type,
      xs.take (min comps.length xs.length))
  | .listV xs => if comps.length = 0 ∨ xs.length = 0 then .ok ([], []) else .error .typeErr
  | .strV s => if comps.length = 0 ∨ s.length = 0 then .ok ([], []) else .error .typeErr
  | .bytesV b => if comps.length = 0 ∨ b.length = 0 then .ok ([], []) else .error .typeErr
  | _ => .error .typeErr

/-- The accumulation loop of `get_abi_inputs` over `zip(inputs, arg_values)`:
only tuple-typed inputs contribute an entry to `new_types`; every input
contributes a value to `new_arguments`. -/
def getAbiInputsGo : List (AbiInput × PyVal) → Except AbiErr (List String × List PyVal)
  | [] => .ok ([], [])
  | (i, v) :: rest =>
    if i.type = "tuple" then
      match tupleComponentValues i.components v with
      | .error e => .error e
      | .ok (ctypes, cvals) =>
        match getAbiInputsGo rest with
        | .error e => .error e
        | .ok (ts, vs) => .ok (("(" ++ joinComma ctypes ++ ")") :: ts, .tupleV cvals :: vs)
    else
      match getAbiInputsGo rest with
      | .error e => .error e
      | .ok (ts, vs) => .ok (ts, v :: vs)

/-- Embeds `get_abi_inputs` (src lines 266-381): accessing
`function_abi["inputs"]` raises `KeyError` when absent; otherwise the zipped
pairs are processed in order. -/
def get_abi_inputs (fa : FnABI) (arg_values : List PyVal) :
    Except AbiErr (List String × List PyVal) :=
  match fa.inputs with
  | none => .error .keyErr
  | some ins => getAbiInputsGo (ins.zip arg_values)

/-- `all(is_encodable(t, a) for t, a in zip(types, arguments))`: a generator,
short-circuiting at the first `False`. -/
def allPairsEncodable (ext : Ext) : List (String × PyVal) → Option Bool
  | [] => some true
  | (t, v) :: rest =>
    match is_encodable ext t v with
    | none => none
    | some false => some false
    | some true => allPairsEncodable ext rest

/-- Embeds `check_if_arguments_can_be_encoded` (src lines 384-398): only
`TypeError` raised by `merge_args_and_kwargs` is caught and turned into
`False`; exceptions from `get_abi_inputs` and `is_encodable` escape
(`none`). -/
def check_if_arguments_can_be_encoded (ext : Ext) (fa : FnABI) (args : List PyVal)
    (kwargs : List (String × PyVal)) : Option Bool :=
  match merge_args_and_kwargs fa args kwargs with
  | .error .missingInputsKey => none
  | .error _ => some false
  | .ok arguments =>
    if (fa.inputs.getD []).length ≠ arguments.length then some false
    else
      match get_abi_inputs fa arguments with
      | .error _ => none
      | .ok (types, argvals) => allPairsEncodable ext (types.zip argvals)

/-- Embeds `filter_by_encodability` (src lines 257-263): a list comprehension
whose filter calls `check_if_arguments_can_be_encoded`; the first escaping
exception aborts the whole comprehension. -/
def filter_by_encodability (ext : Ext) (args : List PyVal)
    (kwargs : List (String × PyVal)) : List FnABI → Option (List FnABI)
  | [] => some []
  | fa :: rest =>
    match check_if_arguments_can_be_encoded ext fa args kwargs with
    | none => none
    | some b =>
      match filter_by_encodability ext args kwargs rest with
      | none => none
      | some r => some (if b then fa :: r else r)

/-! ## The typed-data-tree engine -/

/-- The `arrlist` slot of the `(base, sub, arrlist)` triple inside
`abi_sub_tree`.  Normally a list of array suffixes; but when a type string of
length exactly 3 is destructured char-wise by `base, sub, arrlist =
data_type` (src line 753), the slot holds a one-character string. -/
inductive ArrL where
  | lst (l : List (Option Nat))
  | chs (cs : List Char)
deriving DecidableEq

/-- Python truthiness of the `arrlist` slot. -/
def ArrL.truthy : ArrL → Bool
  | .lst l => !l.isEmpty
  | .chs cs => !cs.isEmpty

/-- `arrlist[:-1]`. -/
def ArrL.dropOuter : ArrL → ArrL
  | .lst l => .lst l.dropLast
  | .chs cs => .chs cs.dropLast

/-- `''.join(map(repr, arrlist))`. -/
def ArrL.collapsePart : ArrL → String
  | .lst l => String.join (l.map reprArrEntry)
  | .chs cs => String.join (cs.map pyRepr1)

/-- `collapse_type(base, sub, arrlist)` on the slot representation. -/
def collapseA (b s : String) (a : ArrL) : String :=
  b ++ s ++ a.collapsePart

mutual

/-- The body of `abi_sub_tree` after the `(base, sub, arrlist)` triple is in
hand (src lines 757-769); the recursive call passes the triple, whose
3-tuple unpacking always succeeds, so recursion re-enters here directly.
The array branch rebuilds children as a Python list (a `[...]`
comprehension) whatever the iterable `data_value` was; iterating a value
that is not a list or tuple is modelled as an error (in Python a string,
bytes or dict would be iterated element-wise; no embedded claim reaches an
array type paired with those shapes, every other shape raises `TypeError`
exactly as modelled). -/
def subTreeCore (b s : String) (a : ArrL) (v : PyVal) : Option PyVal :=
  if a.truthy then
    match v with
    | .listV xs =>
      (subTreeChildren b s a.dropOuter xs).map fun cs =>
        PyVal.typed (some (collapseA b s a)) (.listV cs)
    | .tupleV xs =>
      (subTreeChildren b s a.dropOuter xs).map fun cs =>
        PyVal.typed (some (collapseA b s a)) (.listV cs)
    | _ => none
  else some (.typed (some (collapseA b s a)) v)
termination_by structural v

/-- `[abi_sub_tree(sub_type, sub_value) for sub_value in data_value]`. -/
def subTreeChildren (b s : String) (a : ArrL) : List PyVal → Option (List PyVal)
  | [] => some []
  | x :: xs =>
    match subTreeCore b s a x with
    | none => none
    | some c =>
      match subTreeChildren b s a xs with
      | none => none
      | some cs => some (c :: cs)
termination_by structural xs => xs

end

/-- Embeds `abi_sub_tree` (src lines 741-769) for the two argument shapes it
receives from `abi_data_tree`: a type string or `None`.  A tuple type string
paired with a tuple value becomes one opaque leaf; `None` wraps the value
untyped; a string of length exactly 3 (such as `"int"`) is destructured
char-wise by the `try` unpacking rather than being parsed; every other
string goes through `process_type`. -/
def abi_sub_tree (dt : Option String) (v : PyVal) : Option PyVal :=
  match dt with
  | some t =>
    if startsParen t ∧ v.isTuple then some (.typed (some t) v)
    else
      (match t.toList with
       | [c0, c1, c2] => subTreeCore (String.mk [c0]) (String.mk [c1]) (.chs [c2]) v
       | _ =>
         match process_type t with
         | none => none
         | some (b, s, arr) => subTreeCore b s (.lst arr) v)
  | none => some (.typed none v)

/-- Embeds `abi_data_tree` (src lines 674-689): zips `types` with `data`
(truncating at the shorter list) and decorates each pair. -/
def abi_data_tree (types : List (Option String)) (data : List PyVal) :
    Option (List PyVal) :=
  (types.zip data).mapM fun td => abi_sub_tree td.1 td.2

mutual

/-- Modelled from the spec: `recursive_map(func, data)` from
`web3._utils.formatters` (imported at src lines 21-23 but itself not under
`src/`): walks the value bottom-up — elements of lists and tuples, dict
values, and the data of an `ABITypedData` node are mapped first, then the
rebuilt value is passed to `func` (spec §4.6: "recursively walks the tree,
descending into any sequence-valued node, including the root sequence and
array-children").  Strings are not descended into; the `abi_type` field of a
node is a type string or `None`, on which every `func` used in this
development is the identity, so that field is carried through unchanged. -/
def recursive_map (f : PyVal → PyVal) (v : PyVal) : PyVal :=
  match v with
  | .listV xs => f (.listV (recursiveMapList f xs))
  | .tupleV xs => f (.tupleV (recursiveMapList f xs))
  | .dictV kvs => f (.dictV (recursiveMapDict f kvs))
  | .typed t d => f (.typed t (recursive_map f d))
  | x => f x
termination_by structural v

/-- Element-wise walk of a sequence. -/
def recursiveMapList (f : PyVal → PyVal) : List PyVal → List PyVal
  | [] => []
  | x :: xs => recursive_map f x :: recursiveMapList f xs
termination_by structural xs => xs

/-- Value-wise walk of a dict. -/
def recursiveMapDict (f : PyVal → PyVal) :
    List (String × PyVal) → List (String × PyVal)
  | [] => []
  | (k, x) :: rest => (k, recursive_map f x) :: recursiveMapDict f rest
termination_by structural kvs => kvs

end

/-- Embeds `strip_abi_type` (src lines 772-776). -/
def strip_abi_type : PyVal → PyVal
  | .typed _ d => d
  | v => v

/-- `recursive_map(strip_abi_type, tree)`, the final pipeline stage of
`map_abi_data`. -/
def stripTypes (v : PyVal) : PyVal :=
  recursive_map strip_abi_type v

/-- The inner `map_to_typed_data` of `data_tree_map` (src lines 698-713): a
string is returned unchanged (whether or not it starts with `(`); a node
with a tuple type string or a `None` type is returned unchanged; any other
node is rebuilt from `func(abi_type, data)`; non-node values pass through. -/
def map_to_typed_data (f : String → PyVal → String × PyVal) : PyVal → PyVal
  | .typed (some t) d =>
    if startsParen t then .typed (some t) d
    else
      match f t d with
      | (t2, d2) => .typed (some t2) d2
  | .typed none d => .typed none d
  | v => v

/-- Embeds `data_tree_map` (src lines 692-714). -/
def data_tree_map (f : String → PyVal → String × PyVal) (tree : PyVal) : PyVal :=
  recursive_map (map_to_typed_data f) tree

/-- Embeds `map_abi_data` (src lines 641-671): decorate with
`abi_data_tree`, fold the normalizers through `data_tree_map`, then strip.
The decorated tree is a Python list, modelled as `.listV`; the result is the
final stripped value (always a `.listV` of the per-entry results). -/
def map_abi_data (normalizers : List (String → PyVal → String × PyVal))
    (types : List (Option String)) (data : List PyVal) : Option PyVal :=
  (abi_data_tree types data).map fun tree =>
    stripTypes (normalizers.foldl (fun acc f => data_tree_map f acc) (.listV tree))

/-! ## Shape predicates for the tree round trip

The following Boolean predicates delimit the value shapes on which the
decorate/strip round trip of `map_abi_data` is faithful; they follow the
branch structure of `abi_sub_tree` but are not part of the source. -/

mutual

/-- A value containing no `ABITypedData` node anywhere (the shape of all raw
caller data before decoration). -/
def cleanV : PyVal → Bool
  | .typed _ _ => false
  | .listV xs => cleanList xs
  | .tupleV xs => cleanList xs
  | .dictV kvs => cleanDict kvs
  | _ => true
termination_by structural v => v

/-- Elementwise `cleanV`. -/
def cleanList : List PyVal → Bool
  | [] => true
  | x :: xs => cleanV x && cleanList xs
termination_by structural l => l

/-- Valuewise `cleanV`. -/
def cleanDict : List (String × PyVal) → Bool
  | [] => true
  | (_, x) :: kvs => cleanV x && cleanDict kvs
termination_by structural l => l

end

/-- Whether a value is an `ABITypedData` node. -/
def isTypedNode : PyVal → Bool
  | .typed _ _ => true
  | _ => false

mutual

/-- The value shapes on which `subTreeCore` succeeds and its decoration is
undone exactly by stripping: at an array level the stored collapsed type
does not look like a tuple type and the value is a Python list (a tuple
would come back as a list) whose elements are recursively well-formed; at
the leaf the value is clean. -/
def wfCore (b s : String) (a : ArrL) (v : PyVal) : Bool :=
  if a.truthy then
    match v with
    | .listV xs => !startsParen (collapseA b s a) && wfCoreList b s a.dropOuter xs
    | _ => false
  else cleanV v
termination_by structural v

/-- Elementwise `wfCore`. -/
def wfCoreList (b s : String) (a : ArrL) : List PyVal → Bool
  | [] => true
  | x :: xs => wfCore b s a x && wfCoreList b s a xs
termination_by structural l => l

end

/-- The (type, value) pairs on which `abi_sub_tree` round-trips: a `None`
type or an opaque tuple leaf wraps a clean value (a tuple for the latter);
any other type must not start with `(`, and the value must fit the parsed
(or char-destructured) array shape per `wfCore`. -/
def wfPair (dt : Option String) (v : PyVal) : Bool :=
  match dt with
  | none => cleanV v
  | some t =>
    if startsParen t then v.isTuple && cleanV v
    else
      match t.toList with
      | [c0, c1, c2] => wfCore (String.mk [c0]) (String.mk [c1]) (.chs [c2]) v
      | _ =>
        match process_type t with
        | none => false
        | some (b, s, arr) => wfCore b s (.lst arr) v

mutual

/-- The node shapes occurring in trees built by `abi_data_tree` from
well-formed pairs: a `None`-typed or opaque-tuple node wraps clean data; a
plain-typed node either wraps a list of recursively well-formed children
(the array case) or clean leaf data; bare clean values are also allowed. -/
def wfNode : PyVal → Bool
  | .typed none d => cleanV d
  | .typed (some t) (.listV xs) =>
    if startsParen t then cleanList xs else wfNodeList xs
  | .typed (some _) d => cleanV d
  | v => cleanV v
termination_by structural v => v

/-- Elementwise `wfNode`. -/
def wfNodeList : List PyVal → Bool
  | [] => true
  | x :: xs => wfNode x && wfNodeList xs
termination_by structural l => l

end

mutual

/-- Follows the spec claim for `data_tree_map` (spec words, not the source):
walk the tree descending into sequence-valued nodes, including the root
sequence and array-children; at each typed leaf node whose type is a plain
(non-tuple, non-`None`) string apply the normalizer and rewrap; leave opaque
tuple-leaf nodes and `None`-typed nodes untouched, never recursing into an
opaque tuple leaf. -/
def claimedLeafMap (f : String → PyVal → String × PyVal) : PyVal → PyVal
  | .listV xs => .listV (claimedLeafMapList f xs)
  | .tupleV xs => .tupleV (claimedLeafMapList f xs)
  | .typed none d => .typed none d
  | .typed (some t) (.listV xs) =>
    if startsParen t then .typed (some t) (.listV xs)
    else .typed (some t) (.listV (claimedLeafMapList f xs))
  | .typed (some t) d =>
    if startsParen t then .typed (some t) d
    else
      match f t d with
      | (t2, d2) => .typed (some t2) d2
  | v => v
termination_by structural v => v

/-- Elementwise `claimedLeafMap`. -/
def claimedLeafMapList (f : String → PyVal → String × PyVal) :
    List PyVal → List PyVal
  | [] => []
  | x :: xs => claimedLeafMap f x :: claimedLeafMapList f xs
termination_by structural l => l

end

/-- A concrete normalizer used as a test vector: keeps list-valued data
unchanged and wraps every other value in a one-element tuple. -/
def listKeepNormalizer : String → PyVal → String × PyVal :=
  fun t v =>
    match v with
    | .listV ys => (t, .listV ys)
    | w => (t, .tupleV [w])

/-- A concrete type-preserving normalizer used as a test vector: increments
integer leaves and keeps everything else unchanged. -/
def incIntNormalizer : String → PyVal → String × PyVal :=
  fun t v =>
    (t, match v with
        | .intV n => .intV (n + 1)
        | w => w)

/-- The spec-side right-hand condition of claim C1: the value is a list or
tuple whose length equals the number of top-level comma-separated components
of the tuple type string (split respecting nested parentheses, per §4.2),
each component/value pair itself encodable. -/
def claimTupleEncodable (ext : Ext) (t : String) (v : PyVal) : Prop :=
  ∃ xs, (v = .listV xs ∨ v = .tupleV xs) ∧
    (get_tuple_component_types t).length = xs.length ∧
    ∀ p ∈ (get_tuple_component_types t).zip xs, is_encodable ext p.1 p.2 = some true

/-! ## Claim C7: collapse / component-split round trip -/

/-- A type string free of commas and parentheses (every concrete non-tuple
ABI type string is). -/
def noSpecialChars (s : String) : Bool :=
  s.toList.all fun c => ¬ (c = ',' ∨ c = '(' ∨ c = ')')

mutual

/-- Well-formedness of a descriptor for the round-trip property: every
non-tuple leaf type string is free of commas and parentheses. -/
def wfAbiInput : AbiInput → Bool
  | .mk _ t comps => if t = "tuple" then wfAbiInputList comps else noSpecialChars t
termination_by structural a => a

/-- Well-formedness of a component list. -/
def wfAbiInputList : List AbiInput → Bool
  | [] => true
  | a :: rest => wfAbiInput a && wfAbiInputList rest
termination_by structural l => l

end

/-- `",".join` on char lists. -/
def joinCC : List (List Char) → List Char
  | [] => []
  | [p] => p
  | p :: rest => p ++ ',' :: joinCC rest

/-- Scanning a fragment never meets a comma at depth 0 (with the same depth
arithmetic as `splitTopAux`). -/
def noTopComma : List Char → Nat → Bool
  | [], _ => true
  | c :: rest, d =>
    if c = ',' ∧ d = 0 then false
    else noTopComma rest (if c = '(' then d + 1 else if c = ')' then d - 1 else d)

/-- The parenthesis depth after scanning a fragment. -/
def depthAfter : List Char → Nat → Nat
  | [], d => d
  | c :: rest, d =>
    depthAfter rest (if c = '(' then d + 1 else if c = ')' then d - 1 else d)

/-- A balanced fragment relative to a starting depth: parentheses never dip
below the start, no comma at relative depth 0, and the net depth returns to
the start. -/
def balAux : List Char → Nat → Bool
  | [], d => d = 0
  | c :: rest, d =>
    if c = ')' then (if d = 0 then false else balAux rest (d - 1))
    else if c = '(' then balAux rest (d + 1)
    else if c = ',' ∧ d = 0 then false
    else balAux rest d

/-- The nested tuple descriptor components used in the repository's own
`collapse_if_tuple` test. -/
def compsEx : List AbiInput :=
  [.mk "anAddress" "address" [], .mk "anInt" "uint256" [],
   .mk "aNestedTuple" "tuple" [.mk "anotherInt" "uint256" []]]

/-! ## Claim C3: merge_args_and_kwargs -/

/-- The ordering the claim describes: the value of input `i` is the `i`-th
positional argument when `i` is positionally filled, and otherwise the kwarg
value registered under the `i`-th input name. -/
def mergedSpec (ins : List AbiInput) (args : List PyVal)
    (kwargs : List (String × PyVal)) : List PyVal :=
  (List.range ins.length).map fun i =>
    if i < args.length then args.getD i .noneV
    else (lookupStr kwargs ((ins.map AbiInput.name).getD i "")).getD .noneV

/-! ## Claim C6: get_abi_inputs -/

/-- A tuple descriptor of nesting depth 1: no component is itself a tuple. -/
def depth1Tuple (i : AbiInput) : Bool :=
  i.components.all fun c => ¬ (c.type = "tuple")

/-- Per-pair well-shapedness under which `get_abi_inputs` succeeds: a
tuple-typed input must be depth 1 and receive either a dict of exactly the
component arity whose keys cover every component name, or a tuple of exactly
the component arity; a non-tuple input takes anything. -/
def c6fits (i : AbiInput) (v : PyVal) : Prop :=
  i.type = "tuple" →
    (depth1Tuple i = true ∧
      ((∃ kvs, v = .dictV kvs ∧ kvs.length = i.components.length ∧
         ∀ c ∈ i.components, (lookupStr kvs c.name).isSome = true) ∨
       (∃ xs, v = .tupleV xs ∧ xs.length = i.components.length)))

/-- The flattened argument value the claim describes: component values by
name for a mapping, the tuple itself by position. -/
def c6val (i : AbiInput) (v : PyVal) : PyVal :=
  if i.type = "tuple" then
    match v with
    | .dictV kvs => .tupleV (i.components.map fun c => (lookupStr kvs c.name).getD .noneV)
    | w => w
  else v

/-! ## Shared lemmas -/

theorem isEncAllPairs_eq_true_iff (ext : Ext) (cs : List String) (xs : List PyVal) :
    isEncAllPairs ext cs xs = some true ↔
      ∀ p ∈ cs.zip xs, is_encodable ext p.1 p.2 = some true := by
  induction cs generalizing xs with
  | nil => cases xs <;> simp [isEncAllPairs]
  | cons c cs ih =>
    cases xs with
    | nil => simp [isEncAllPairs]
    | cons x xs =>
      simp only [isEncAllPairs, List.zip_cons_cons, List.mem_cons, forall_eq_or_imp]
      cases h : is_encodable ext c x with
      | none => simp [h]
      | some b =>
        cases b with
        | false =>
          cases hr : isEncAllPairs ext cs xs with
          | none => simp [h, hr]
          | some r => simp [h, hr]
        | true =>
          cases hr : isEncAllPairs ext cs xs with
          | none =>
            constructor
            · intro hc; cases hc
            · intro hc
              rw [(ih xs).2 hc.2] at hr
              cases hr
          | some r =>
            have hiff := ih xs
            rw [hr] at hiff
            simp only [Option.some_inj] at hiff
            simp [h, hr, hiff]

/-! ## Claim C1 -/

/-- C1, amended: for every type string starting with `(` and every value,
`is_encodable` returns `True` iff the value is a list or tuple whose length
equals the number of fragments obtained by stripping all enclosing
parentheses and splitting at **every** comma (`_type.strip("()").split(",")`
— nested parentheses are not respected), with every fragment/value pair
itself encodable; for flat tuple types this coincides with top-level
component splitting, and in particular
`is_encodable("(uint256,uint256)", (1, 2))` and
`is_encodable("(uint256,uint256)", [1, 2])` are `True` while
`is_encodable("(uint256,uint256)", (1,))` is `False`. -/
theorem C1_is_encodable_tuple_amended :
    (∀ (ext : Ext) (t : String) (v : PyVal), startsParen t = true →
      (is_encodable ext t v = some true ↔
        ∃ xs, (v = .listV xs ∨ v = .tupleV xs) ∧
          (pySplitComma (pyStrip t)).length = xs.length ∧
          ∀ p ∈ (pySplitComma (pyStrip t)).zip xs,
            is_encodable ext p.1 p.2 = some true)) ∧
    is_encodable extModel "(uint256,uint256)" (.tupleV [.intV 1, .intV 2]) = some true ∧
    is_encodable extModel "(uint256,uint256)" (.listV [.intV 1, .intV 2]) = some true ∧
    is_encodable extModel "(uint256,uint256)" (.tupleV [.intV 1]) = some false := by
  refine ⟨?_, by decide, by decide, by decide⟩
  intro ext t v ht
  cases v with
  | listV xs =>
    simp only [is_encodable, ht, if_true]
    by_cases hlen : (pySplitComma (pyStrip t)).length = xs.length
    · rw [if_pos hlen, isEncAllPairs_eq_true_iff]
      constructor
      · intro hall; exact ⟨xs, Or.inl rfl, hlen, hall⟩
      · rintro ⟨ys, hy | hy, hl, hall⟩
        · cases hy; exact hall
        · exact PyVal.noConfusion hy
    · rw [if_neg hlen]
      constructor
      · intro hc; cases hc
      · rintro ⟨ys, hy | hy, hl, _⟩
        · cases hy; exact absurd hl hlen
        · exact PyVal.noConfusion hy
  | tupleV xs =>
    simp only [is_encodable, ht, if_true]
    by_cases hlen : (pySplitComma (pyStrip t)).length = xs.length
    · rw [if_pos hlen, isEncAllPairs_eq_true_iff]
      constructor
      · intro hall; exact ⟨xs, Or.inr rfl, hlen, hall⟩
      · rintro ⟨ys, hy | hy, hl, hall⟩
        · exact PyVal.noConfusion hy
        · cases hy; exact hall
    · rw [if_neg hlen]
      constructor
      · intro hc; cases hc
      · rintro ⟨ys, hy | hy, hl, _⟩
        · exact PyVal.noConfusion hy
        · cases hy; exact absurd hl hlen
  | intV n =>
    simp only [is_encodable, ht, if_true]
    refine ⟨fun hc => (nomatch hc), ?_⟩
    rintro ⟨ys, hy | hy, -, -⟩ <;> exact PyVal.noConfusion hy
  | strV s =>
    simp only [is_encodable, ht, if_true]
    refine ⟨fun hc => (nomatch hc), ?_⟩
    rintro ⟨ys, hy | hy, -, -⟩ <;> exact PyVal.noConfusion hy
  | bytesV b =>
    simp only [is_encodable, ht, if_true]
    refine ⟨fun hc => (nomatch hc), ?_⟩
    rintro ⟨ys, hy | hy, -, -⟩ <;> exact PyVal.noConfusion hy
  | boolV b =>
    simp only [is_encodable, ht, if_true]
    refine ⟨fun hc => (nomatch hc), ?_⟩
    rintro ⟨ys, hy | hy, -, -⟩ <;> exact PyVal.noConfusion hy
  | noneV =>
    simp only [is_encodable, ht, if_true]
    refine ⟨fun hc => (nomatch hc), ?_⟩
    rintro ⟨ys, hy | hy, -, -⟩ <;> exact PyVal.noConfusion hy
  | dictV kvs =>
    simp only [is_encodable, ht, if_true]
    refine ⟨fun hc => (nomatch hc), ?_⟩
    rintro ⟨ys, hy | hy, -, -⟩ <;> exact PyVal.noConfusion hy
  | typed t2 d =>
    simp only [is_encodable, ht, if_true]
    refine ⟨fun hc => (nomatch hc), ?_⟩
    rintro ⟨ys, hy | hy, -, -⟩ <;> exact PyVal.noConfusion hy

/-- C1 witness: the amended equivalence evaluated at the tuple type
`"(uint256)"` and value `(5,)`. -/
theorem C1_is_encodable_tuple_amended_witness :
    startsParen "(uint256)" = true ∧
    (is_encodable extModel "(uint256)" (.tupleV [.intV 5]) = some true ↔
      ∃ xs, ((PyVal.tupleV [.intV 5]) = .listV xs ∨ (PyVal.tupleV [.intV 5]) = .tupleV xs) ∧
        (pySplitComma (pyStrip "(uint256)")).length = xs.length ∧
        ∀ p ∈ (pySplitComma (pyStrip "(uint256)")).zip xs,
          is_encodable extModel p.1 p.2 = some true) :=
  ⟨by decide,
   C1_is_encodable_tuple_amended.1 extModel "(uint256)" (.tupleV [.intV 5]) (by decide)⟩

theorem strToList_append (a b : String) : (a ++ b).toList = a.toList ++ b.toList := by
  cases a; cases b; rfl

theorem strMk_toList (s : String) : String.mk s.toList = s := by
  cases s; rfl

theorem joinComma_toList (ss : List String) :
    (joinComma ss).toList = joinCC (ss.map String.toList) := by
  match ss with
  | [] => rfl
  | [s] => rfl
  | s :: s2 :: rest =>
    show ((s ++ ",") ++ joinComma (s2 :: rest)).toList = _
    rw [strToList_append, strToList_append, joinComma_toList (s2 :: rest)]
    simp only [List.append_assoc, List.map_cons]
    rfl

theorem splitTopAux_append (p : List Char) : ∀ (rest : List Char) (d : Nat)
    (cur : List Char), noTopComma p d = true →
    splitTopAux (p ++ rest) d cur = splitTopAux rest (depthAfter p d) (p.reverse ++ cur) := by
  induction p with
  | nil => intro rest d cur _; simp [depthAfter]
  | cons c p ih =>
    intro rest d cur hp
    rw [noTopComma] at hp
    by_cases hc : c = ',' ∧ d = 0
    · rw [if_pos hc] at hp; cases hp
    · rw [if_neg hc] at hp
      rw [List.cons_append, splitTopAux, if_neg hc, depthAfter, ih _ _ _ hp]
      simp

theorem balAux_shift (p : List Char) : ∀ (d k : Nat), balAux p d = true →
    noTopComma p (k + d) = true ∧ depthAfter p (k + d) = k := by
  induction p with
  | nil =>
    intro d k hp
    rw [balAux] at hp
    simp only [decide_eq_true_eq] at hp
    subst hp
    exact ⟨rfl, rfl⟩
  | cons c p ih =>
    intro d k hp
    rw [balAux] at hp
    by_cases hcr : c = ')'
    · subst hcr
      rw [if_pos rfl] at hp
      by_cases hd : d = 0
      · rw [if_pos hd] at hp; cases hp
      · rw [if_neg hd] at hp
        have h2 := ih (d - 1) k hp
        have harith : k + d - 1 = k + (d - 1) := by omega
        constructor
        · rw [noTopComma, if_neg (by simp), if_neg (by simp), if_pos rfl, harith]
          exact h2.1
        · rw [depthAfter, if_neg (by simp), if_pos rfl, harith]
          exact h2.2
    · by_cases hcl : c = '('
      · subst hcl
        rw [if_neg (by simp), if_pos rfl] at hp
        have h2 := ih (d + 1) k hp
        have harith : k + d + 1 = k + (d + 1) := by omega
        constructor
        · rw [noTopComma, if_neg (by simp), if_pos rfl, harith]
          exact h2.1
        · rw [depthAfter, if_pos rfl, harith]
          exact h2.2
      · by_cases hcc : c = ',' ∧ d = 0
        · rw [if_neg hcr, if_neg hcl, if_pos hcc] at hp; cases hp
        · rw [if_neg hcr, if_neg hcl, if_neg hcc] at hp
          have h2 := ih d k hp
          have hcc2 : ¬ (c = ',' ∧ k + d = 0) := by
            rintro ⟨hc, hkd⟩
            exact hcc ⟨hc, by omega⟩
          constructor
          · rw [noTopComma, if_neg hcc2, if_neg hcl, if_neg hcr]
            exact h2.1
          · rw [depthAfter, if_neg hcl, if_neg hcr]
            exact h2.2

theorem balAux_append (p : List Char) : ∀ (rest : List Char) (d k : Nat),
    balAux p d = true → 1 ≤ k →
    balAux (p ++ rest) (k + d) = balAux rest k := by
  induction p with
  | nil =>
    intro rest d k hp _
    rw [balAux] at hp
    simp only [decide_eq_true_eq] at hp
    subst hp
    simp
  | cons c p ih =>
    intro rest d k hp hk
    rw [balAux] at hp
    by_cases hcr : c = ')'
    · subst hcr
      rw [if_pos rfl] at hp
      by_cases hd : d = 0
      · rw [if_pos hd] at hp; cases hp
      · rw [if_neg hd] at hp
        rw [List.cons_append, balAux, if_pos rfl, if_neg (by omega),
          show k + d - 1 = k + (d - 1) by omega]
        exact ih _ _ _ hp hk
    · by_cases hcl : c = '('
      · subst hcl
        rw [if_neg (by simp), if_pos rfl] at hp
        rw [List.cons_append, balAux, if_neg (by simp), if_pos rfl,
          show k + d + 1 = k + (d + 1) by omega]
        exact ih _ _ _ hp hk
      · by_cases hcc : c = ',' ∧ d = 0
        · rw [if_neg hcr, if_neg hcl, if_pos hcc] at hp; cases hp
        · rw [if_neg hcr, if_neg hcl, if_neg hcc] at hp
          rw [List.cons_append, balAux, if_neg hcr, if_neg hcl,
            if_neg (by rintro ⟨hc, hkd⟩; omega)]
          exact ih _ _ _ hp hk

theorem joinCC_closing (ps : List (List Char)) :
    (∀ p ∈ ps, balAux p 0 = true) → balAux (joinCC ps ++ [')']) 1 = true := by
  match ps with
  | [] => intro _; rfl
  | [p] =>
    intro hps
    have hap := balAux_append p [')'] 0 1 (hps p (by simp)) (by omega)
    rw [show (1 : Nat) + 0 = 1 from rfl] at hap
    rw [show joinCC [p] = p from rfl, hap]
    rfl
  | p :: q :: rest =>
    intro hps
    have hap := balAux_append p (',' :: (joinCC (q :: rest) ++ [')'])) 0 1
      (hps p (by simp)) (by omega)
    rw [show (1 : Nat) + 0 = 1 from rfl] at hap
    rw [show joinCC (p :: q :: rest) = p ++ ',' :: joinCC (q :: rest) from rfl,
      List.append_assoc]
    show balAux (p ++ (',' :: (joinCC (q :: rest) ++ [')']))) 1 = true
    rw [hap, balAux, if_neg (by decide), if_neg (by decide),
      if_neg (by rintro ⟨-, h⟩; exact absurd h (by decide))]
    exact joinCC_closing (q :: rest) fun x hx => hps x (by simp [hx])

theorem splitTop_joinCC (ps : List (List Char)) :
    ps ≠ [] → (∀ p ∈ ps, balAux p 0 = true) →
    splitTopAux (joinCC ps) 0 [] = ps := by
  match ps with
  | [] => intro h; cases h rfl
  | [p] =>
    intro _ hps
    have hb := balAux_shift p 0 0 (hps p (by simp))
    have happ : splitTopAux (p ++ []) 0 [] = splitTopAux [] (depthAfter p 0) (p.reverse ++ []) :=
      splitTopAux_append p [] 0 [] hb.1
    rw [List.append_nil, List.append_nil] at happ
    rw [show joinCC [p] = p from rfl, happ, splitTopAux]
    simp
  | p :: q :: rest =>
    intro _ hps
    have hb := balAux_shift p 0 0 (hps p (by simp))
    have hd0 : depthAfter p 0 = 0 := hb.2
    rw [show joinCC (p :: q :: rest) = p ++ ',' :: joinCC (q :: rest) from rfl,
      splitTopAux_append p _ 0 [] hb.1, hd0, splitTopAux, if_pos ⟨rfl, rfl⟩]
    simp only [List.append_nil, List.reverse_reverse]
    rw [splitTop_joinCC (q :: rest) (by simp) fun x hx => hps x (by simp [hx])]

theorem noSpecial_balAux (cs : List Char) :
    (cs.all fun c => ¬ (c = ',' ∨ c = '(' ∨ c = ')')) = true → balAux cs 0 = true := by
  induction cs with
  | nil => intro _; rfl
  | cons c rest ih =>
    intro h
    rw [List.all_cons, Bool.and_eq_true] at h
    have hc := of_decide_eq_true h.1
    push_neg at hc
    rw [balAux, if_neg hc.2.2, if_neg hc.2.1, if_neg (by rintro ⟨h1, -⟩; exact hc.1 h1)]
    exact ih h.2

theorem collapseComponents_eq_map (l : List AbiInput) :
    collapseComponents l = l.map collapse_if_tuple := by
  induction l with
  | nil => rfl
  | cons a rest ih => rw [collapseComponents, ih]; rfl

mutual

theorem collapse_balAux : ∀ (a : AbiInput), wfAbiInput a = true →
    balAux (collapse_if_tuple a).toList 0 = true
  | .mk nm t comps, h => by
    rw [wfAbiInput] at h
    by_cases ht : t = "tuple"
    · rw [if_pos ht] at h
      rw [collapse_if_tuple, if_neg (by simp [ht])]
      have hin : ∀ p ∈ (collapseComponents comps).map String.toList, balAux p 0 = true := by
        intro p hp
        rw [List.mem_map] at hp
        obtain ⟨s, hs, rfl⟩ := hp
        exact collapseList_balAux comps h s hs
      have hjoin := joinCC_closing _ hin
      rw [strToList_append, strToList_append, joinComma_toList]
      show balAux ('(' :: (joinCC ((collapseComponents comps).map String.toList) ++ [')'])) 0
        = true
      rw [balAux, if_neg (by simp), if_pos rfl]
      exact hjoin
    · rw [if_neg ht] at h
      rw [collapse_if_tuple, if_pos (by simpa using ht)]
      exact noSpecial_balAux _ h
termination_by structural a => a

theorem collapseList_balAux : ∀ (l : List AbiInput), wfAbiInputList l = true →
    ∀ s ∈ collapseComponents l, balAux s.toList 0 = true
  | [], _, s, hs => by rw [collapseComponents] at hs; cases hs
  | a :: rest, h, s, hs => by
    rw [wfAbiInputList, Bool.and_eq_true] at h
    rw [collapseComponents, List.mem_cons] at hs
    rcases hs with rfl | hs
    · exact collapse_balAux a h.1
    · exact collapseList_balAux rest h.2 s hs
termination_by structural l => l

end

/-- C7: for every well-formed tuple descriptor `d` with `N` (nonempty)
components whose leaf type strings contain no comma or parenthesis,
`collapse_if_tuple d` is a string with exactly `N` top-level comma-separated
entries, and `get_tuple_component_types` applied to it recovers exactly
`[collapse_if_tuple c for c in d.components]`, splitting only at top-level
commas and never inside a nested tuple. -/
theorem C7_collapse_roundtrip (nm : String) (comps : List AbiInput)
    (h : wfAbiInput (.mk nm "tuple" comps) = true) (hne : comps ≠ []) :
    (get_tuple_component_types (collapse_if_tuple (.mk nm "tuple" comps))).length
        = comps.length ∧
    get_tuple_component_types (collapse_if_tuple (.mk nm "tuple" comps))
        = comps.map collapse_if_tuple := by
  have hmain : get_tuple_component_types (collapse_if_tuple (.mk nm "tuple" comps))
      = comps.map collapse_if_tuple := by
    rw [wfAbiInput, if_pos rfl] at h
    rw [collapse_if_tuple, if_neg (by simp)]
    rw [get_tuple_component_types]
    rw [strToList_append, strToList_append, joinComma_toList]
    show ((splitTopAux (('(' :: (joinCC ((collapseComponents comps).map String.toList)
      ++ [')'])).drop 1).dropLast 0 []).map String.mk) = _
    rw [List.drop_one, List.tail_cons, List.dropLast_concat]
    have hne2 : (collapseComponents comps).map String.toList ≠ [] := by
      rw [collapseComponents_eq_map]
      simpa using hne
    have hbal : ∀ p ∈ (collapseComponents comps).map String.toList, balAux p 0 = true := by
      intro p hp
      rw [List.mem_map] at hp
      obtain ⟨s, hs, rfl⟩ := hp
      exact collapseList_balAux comps h s hs
    rw [splitTop_joinCC _ hne2 hbal, List.map_map]
    have hid : (String.mk ∘ String.toList) = id := by
      funext s; exact strMk_toList s
    rw [hid, List.map_id, collapseComponents_eq_map]
  exact ⟨by rw [hmain, List.length_map], hmain⟩

/-- C7 witness: the round trip evaluated at the nested test descriptor
(collapsing to `"(address,uint256,(uint256))"`). -/
theorem C7_collapse_roundtrip_witness :
    wfAbiInput (AbiInput.mk "order" "tuple" compsEx) = true ∧ compsEx ≠ [] ∧
    ((get_tuple_component_types (collapse_if_tuple (AbiInput.mk "order" "tuple" compsEx))).length
        = compsEx.length ∧
      get_tuple_component_types (collapse_if_tuple (AbiInput.mk "order" "tuple" compsEx))
        = compsEx.map collapse_if_tuple) :=
  ⟨by decide, fun h => List.noConfusion h,
   C7_collapse_roundtrip "order" compsEx (by decide) (fun h => List.noConfusion h)⟩

theorem dictUpsert_of_not_mem (acc : List (String × PyVal)) (k : String) (v : PyVal)
    (h : k ∉ acc.map Prod.fst) : dictUpsert acc k v = acc ++ [(k, v)] := by
  induction acc with
  | nil => rfl
  | cons kv rest ih =>
    rw [List.map_cons, List.mem_cons] at h
    push_neg at h
    rw [dictUpsert, if_neg fun he => h.1 he.symm, ih h.2, List.cons_append]

theorem foldl_dictUpsert_eq_append (l : List (AbiInput × PyVal)) :
    ∀ (acc : List (String × PyVal)),
    (l.map fun p => p.1.name).Nodup →
    (∀ p ∈ l, p.1.name ∉ acc.map Prod.fst) →
    l.foldl (fun acc p => dictUpsert acc p.1.name p.2) acc
      = acc ++ l.map fun p => (p.1.name, p.2) := by
  induction l with
  | nil => intro acc _ _; simp
  | cons p rest ih =>
    intro acc hnd hdisj
    rw [List.map_cons, List.nodup_cons] at hnd
    rw [List.foldl_cons,
      dictUpsert_of_not_mem acc p.1.name p.2 (hdisj p (by simp)),
      ih _ hnd.2 ?_, List.append_assoc, List.map_cons]
    · rfl
    · intro q hq
      rw [List.map_append, List.mem_append]
      push_neg
      refine ⟨hdisj q (by simp [hq]), ?_⟩
      intro hmem
      apply hnd.1
      simp only [List.map_cons, List.map_nil, List.mem_singleton] at hmem
      rw [← hmem]
      exact List.mem_map_of_mem (fun p => p.1.name) hq

theorem zip_map_name_take (ins : List AbiInput) (args : List PyVal)
    (hle : args.length ≤ ins.length) :
    (ins.zip args).map (fun p => p.1.name) = (ins.map AbiInput.name).take args.length := by
  induction ins generalizing args with
  | nil =>
    have : args = [] := List.length_eq_zero.mp (Nat.le_zero.mp (by simpa using hle))
    subst this; rfl
  | cons i rest ih =>
    cases args with
    | nil => simp
    | cons a args =>
      rw [List.zip_cons_cons, List.map_cons, List.map_cons, List.length_cons,
        List.take_succ_cons, ih args (by simpa using hle)]

theorem buildArgsAsKwargs_eq (ins : List AbiInput) (args : List PyVal)
    (hle : args.length ≤ ins.length)
    (hnd : (ins.map AbiInput.name).Nodup) :
    buildArgsAsKwargs ins args = (ins.zip args).map fun p => (p.1.name, p.2) := by
  rw [buildArgsAsKwargs, foldl_dictUpsert_eq_append _ [] ?_ (by simp), List.nil_append]
  rw [zip_map_name_take ins args hle]
  exact hnd.sublist (List.take_sublist _ _)

theorem stableInsert_perm (key : α → Nat) (x : α) (l : List α) :
    List.Perm (stableInsert key x l) (x :: l) := by
  induction l with
  | nil => exact List.Perm.refl _
  | cons y ys ih =>
    rw [stableInsert]
    by_cases h : key y ≤ key x
    · rw [if_pos h]
      exact (ih.cons y).trans (List.Perm.swap x y ys)
    · rw [if_neg h]

theorem stableSortBy_perm (key : α → Nat) (l : List α) :
    List.Perm (stableSortBy key l) l := by
  suffices h : ∀ acc : List α,
      List.Perm (l.foldl (fun acc x => stableInsert key x acc) acc) (acc ++ l) by
    simpa [stableSortBy] using h []
  induction l with
  | nil => intro acc; simp
  | cons x xs ih =>
    intro acc
    rw [List.foldl_cons]
    refine (ih _).trans ?_
    refine (List.Perm.append_right xs (stableInsert_perm key x acc)).trans ?_
    have hmid : List.Perm (x :: (acc ++ xs)) (acc ++ x :: xs) := List.perm_middle.symm
    simpa using hmid

theorem stableInsert_pairwise (key : α → Nat) (x : α) (l : List α)
    (h : l.Pairwise fun a b => key a ≤ key b) :
    (stableInsert key x l).Pairwise fun a b => key a ≤ key b := by
  induction l with
  | nil => simp [stableInsert]
  | cons y ys ih =>
    rw [List.pairwise_cons] at h
    rw [stableInsert]
    by_cases hxy : key y ≤ key x
    · rw [if_pos hxy]
      rw [List.pairwise_cons]
      constructor
      · intro a ha
        have hmem2 := (stableInsert_perm key x ys).mem_iff.mp ha
        rcases List.mem_cons.mp hmem2 with rfl | hmem
        · exact hxy
        · exact h.1 a hmem
      · exact ih h.2
    · rw [if_neg hxy]
      rw [List.pairwise_cons]
      exact ⟨fun a ha => by
        rcases List.mem_cons.mp ha with rfl | hmem
        · omega
        · have := h.1 a hmem; omega,
        List.pairwise_cons.mpr h⟩

theorem stableSortBy_pairwise (key : α → Nat) (l : List α) :
    (stableSortBy key l).Pairwise fun a b => key a ≤ key b := by
  suffices h : ∀ acc : List α, (acc.Pairwise fun a b => key a ≤ key b) →
      (l.foldl (fun acc x => stableInsert key x acc) acc).Pairwise
        fun a b => key a ≤ key b by
    exact h [] (by simp)
  induction l with
  | nil => intro acc hacc; simpa using hacc
  | cons x xs ih =>
    intro acc hacc
    rw [List.foldl_cons]
    exact ih _ (stableInsert_pairwise key x acc hacc)

theorem pairwise_lt_of_le_nodup (key : α → Nat) (l : List α)
    (hle : l.Pairwise fun a b => key a ≤ key b)
    (hnd : (l.map key).Nodup) :
    l.Pairwise fun a b => key a < key b := by
  have hne : l.Pairwise fun a b => key a ≠ key b := (List.pairwise_map.mp hnd)
  exact (hle.and hne).imp fun h => lt_of_le_of_ne h.1 h.2

theorem findIdx_nodup_getElem (names : List String) (hnd : names.Nodup) :
    ∀ (i : Nat) (hi : i < names.length),
    names.findIdx (fun n => n = names[i]) = i := by
  induction names with
  | nil => intro i hi; exact absurd hi (by simp)
  | cons a l ih =>
    rw [List.nodup_cons] at hnd
    intro i hi
    cases i with
    | zero => simp [List.findIdx_cons]
    | succ j =>
      have hj : j < l.length := by simpa using hi
      have hne : ¬ (a = l[j]) := fun he => hnd.1 (he ▸ List.getElem_mem hj)
      simp only [List.getElem_cons_succ, List.findIdx_cons, hne, decide_False,
        cond_false]
      rw [ih hnd.2 j hj]

theorem findIdx_ge_of_not_mem_take (names : List String) (x : String) (a : Nat)
    (hmem : x ∈ names) (hnot : x ∉ names.take a) :
    a ≤ names.findIdx (fun n => n = x) := by
  by_contra hcon
  push_neg at hcon
  have hlt : names.findIdx (fun n => n = x) < names.length :=
    List.findIdx_lt_length_of_exists ⟨x, hmem, by simp⟩
  have hself : names[names.findIdx (fun n => n = x)] = x := by
    have h0 := @List.findIdx_getElem _ (fun n => n = x) names hlt
    simpa using h0
  apply hnot
  have hlen2 : names.findIdx (fun n => n = x) < (names.take a).length := by
    simp only [List.length_take]
    omega
  have htk : (names.take a).get ⟨names.findIdx (fun n => n = x), hlen2⟩ = x := by
    rw [List.get_eq_getElem, List.getElem_take]
    exact hself
  rw [← htk]
  exact List.get_mem _ _ _

theorem lookupStr_self (kwargs : List (String × PyVal))
    (hnd : (kwargs.map Prod.fst).Nodup) :
    ∀ kv ∈ kwargs, lookupStr kwargs kv.1 = some kv.2 := by
  induction kwargs with
  | nil => intro kv hkv; cases hkv
  | cons kw rest ih =>
    rw [List.map_cons, List.nodup_cons] at hnd
    intro kv hkv
    rcases List.mem_cons.mp hkv with rfl | hmem
    · simp [lookupStr]
    · have hne : (kw.1 == kv.1) = false := by
        simp only [beq_eq_false_iff_ne, ne_eq]
        intro he
        exact hnd.1 (he ▸ List.mem_map_of_mem Prod.fst hmem)
      rw [lookupStr, List.find?_cons, hne]
      exact ih hnd.2 kv hmem

theorem kwargs_perm_dropNames (names : List String) (kwargs : List (String × PyVal))
    (a : Nat) (hnd : names.Nodup) (hknd : (kwargs.map Prod.fst).Nodup)
    (hsub : ∀ kv ∈ kwargs, kv.1 ∈ names)
    (hnot : ∀ kv ∈ kwargs, kv.1 ∉ names.take a)
    (hlen : a + kwargs.length = names.length) :
    List.Perm ((names.drop a).map fun nm => (nm, (lookupStr kwargs nm).getD .noneV))
      kwargs := by
  have hkeysub : kwargs.map Prod.fst ⊆ names.drop a := by
    intro x hx
    rw [List.mem_map] at hx
    obtain ⟨kv, hkv, rfl⟩ := hx
    have h1 := hsub kv hkv
    have h2 := hnot kv hkv
    have h3 : kv.1 ∈ names.take a ++ names.drop a := by
      rw [List.take_append_drop]
      exact h1
    rcases List.mem_append.mp h3 with h4 | h4
    · exact absurd h4 h2
    · exact h4
  have hlendrop : (names.drop a).length ≤ (kwargs.map Prod.fst).length := by
    simp only [List.length_drop, List.length_map]
    omega
  have hperm1 : List.Perm (kwargs.map Prod.fst) (names.drop a) :=
    (hknd.subperm hkeysub).perm_of_length_le hlendrop
  have hmapped : (kwargs.map Prod.fst).map
      (fun nm => (nm, (lookupStr kwargs nm).getD .noneV)) = kwargs := by
    rw [List.map_map]
    conv_rhs => rw [← List.map_id kwargs]
    apply List.map_congr_left
    intro kv hkv
    simp [Function.comp, lookupStr_self kwargs hknd kv hkv]
  have h2 : List.Perm ((kwargs.map Prod.fst).map
      (fun nm => (nm, (lookupStr kwargs nm).getD .noneV))) kwargs := by
    rw [hmapped]
  exact (hperm1.map _).symm.trans h2

theorem mergedSpec_no_kwargs (ins : List AbiInput) (args : List PyVal)
    (kwargs : List (String × PyVal)) (hlen : args.length = ins.length) :
    mergedSpec ins args kwargs = args := by
  rw [mergedSpec]
  apply List.ext_getElem
  · simp [hlen]
  · intro i h1 h2
    simp only [List.getElem_map, List.getElem_range]
    have hi : i < args.length := by simpa [hlen] using h2
    rw [if_pos (by simpa using h2), List.getD_eq_getElem args .noneV hi]

theorem merge_sorted_eq (ins : List AbiInput) (args : List PyVal)
    (kwargs : List (String × PyVal))
    (hlen : args.length + kwargs.length = ins.length)
    (hnd : (ins.map AbiInput.name).Nodup)
    (hknd : (kwargs.map Prod.fst).Nodup)
    (hsub : ∀ kv ∈ kwargs, kv.1 ∈ ins.map AbiInput.name)
    (hnot : ∀ kv ∈ kwargs, kv.1 ∉ (ins.map AbiInput.name).take args.length) :
    (stableSortBy (fun kv => (ins.map AbiInput.name).findIdx fun n => n = kv.1)
        (kwargs ++ (ins.zip args).map fun p => (p.1.name, p.2))).map (fun kv => kv.2)
      = mergedSpec ins args kwargs := by
  have han : args.length ≤ ins.length := by omega
  have hlnames : (ins.map AbiInput.name).length = ins.length := by simp
  set key : String × PyVal → Nat :=
    fun kv => (ins.map AbiInput.name).findIdx fun n => n = kv.1 with hkey
  set f : Nat → String × PyVal := fun i =>
    ((ins.map AbiInput.name).getD i "",
     if i < args.length then args.getD i .noneV
     else (lookupStr kwargs ((ins.map AbiInput.name).getD i "")).getD .noneV) with hf
  set E := (List.range ins.length).map f with hE
  have hkeyf : ∀ i, i < ins.length → key (f i) = i := by
    intro i hi
    have hin : i < (ins.map AbiInput.name).length := by omega
    simp only [hkey, hf]
    rw [List.getD_eq_getElem (ins.map AbiInput.name) "" hin]
    exact findIdx_nodup_getElem (ins.map AbiInput.name) hnd i hin
  have hE1 : (List.range args.length).map f
      = (ins.zip args).map fun p => (p.1.name, p.2) := by
    apply List.ext_getElem
    · simp only [List.length_map, List.length_range, List.length_zip]
      omega
    · intro i h1 h2
      simp only [List.getElem_map, List.getElem_range, List.getElem_zip]
      have hia : i < args.length := by simpa using h1
      have hin : i < (ins.map AbiInput.name).length := by omega
      simp only [hf, if_pos hia]
      rw [List.getD_eq_getElem (ins.map AbiInput.name) "" hin,
        List.getD_eq_getElem args .noneV hia]
      simp [List.getElem_map]
  have hE2 : ((List.range kwargs.length).map fun j => f (args.length + j))
      = ((ins.map AbiInput.name).drop args.length).map
          fun nm => (nm, (lookupStr kwargs nm).getD .noneV) := by
    apply List.ext_getElem
    · simp only [List.length_map, List.length_range, List.length_drop]
      omega
    · intro j h1 h2
      simp only [List.getElem_map, List.getElem_range]
      have hj : j < kwargs.length := by simpa using h1
      have hajn : args.length + j < (ins.map AbiInput.name).length := by omega
      simp only [hf, if_neg (by omega : ¬ args.length + j < args.length)]
      rw [List.getD_eq_getElem (ins.map AbiInput.name) "" hajn, List.getElem_drop]
  have hEsplit : E = ((ins.zip args).map fun p => (p.1.name, p.2))
      ++ ((ins.map AbiInput.name).drop args.length).map
          fun nm => (nm, (lookupStr kwargs nm).getD .noneV) := by
    rw [hE, ← hlen, List.range_add, List.map_append, List.map_map, hE1, ← hE2]
    rfl
  have hpermdk := kwargs_perm_dropNames (ins.map AbiInput.name) kwargs args.length
    hnd hknd hsub hnot (by omega)
  have hperm_chain : List.Perm
      (kwargs ++ (ins.zip args).map fun p => (p.1.name, p.2)) E := by
    rw [hEsplit]
    refine (List.Perm.append_right _ hpermdk.symm).trans ?_
    exact List.perm_append_comm
  have hs_perm : List.Perm (stableSortBy key
      (kwargs ++ (ins.zip args).map fun p => (p.1.name, p.2))) E :=
    (stableSortBy_perm key _).trans hperm_chain
  have hEkeys : E.map key = List.range ins.length := by
    rw [hE, List.map_map]
    have hcg : ∀ i ∈ List.range ins.length, (key ∘ f) i = i := by
      intro i hi
      exact hkeyf i (List.mem_range.mp hi)
    rw [List.map_congr_left hcg]
    exact List.map_id _
  have hnodupS : ((stableSortBy key
      (kwargs ++ (ins.zip args).map fun p => (p.1.name, p.2))).map key).Nodup := by
    have hp := hs_perm.map key
    rw [hEkeys] at hp
    exact hp.nodup_iff.mpr (List.nodup_range ins.length)
  have hsortS := pairwise_lt_of_le_nodup key _
    (stableSortBy_pairwise key (kwargs ++ (ins.zip args).map fun p => (p.1.name, p.2)))
    hnodupS
  have hsortE : E.Pairwise fun x y => key x < key y := by
    rw [List.pairwise_iff_getElem]
    intro i j hi hj hij
    have hi2 : i < ins.length := by simpa [hE] using hi
    have hj2 : j < ins.length := by simpa [hE] using hj
    have hgi : E[i] = f i := by simp [hE]
    have hgj : E[j] = f j := by simp [hE]
    rw [hgi, hgj, hkeyf i hi2, hkeyf j hj2]
    exact hij
  haveI : IsAntisymm (String × PyVal) (fun x y => key x < key y) :=
    ⟨fun x y h1 h2 => absurd (h1.trans h2) (lt_irrefl _)⟩
  have hEq : stableSortBy key
      (kwargs ++ (ins.zip args).map fun p => (p.1.name, p.2)) = E :=
    List.eq_of_perm_of_sorted hs_perm hsortS hsortE
  rw [hEq, hE, List.map_map]
  rfl

/-- C3, amended: for every descriptor that carries an `inputs` field whose
input names are pairwise distinct, and every args/kwargs (kwargs with
distinct keys, as a Python dict has): when `len(args)+len(kwargs)` differs
from the number of inputs, `merge_args_and_kwargs` fails with the
argument-count `TypeError`; when kwargs is empty it returns `args`
unchanged; and when additionally no kwarg name collides with a positionally
filled input name and every kwarg name is among the input names, it returns
the argument values ordered by each name's index in the descriptor's input
order (`mergedSpec`). -/
theorem C3_merge_args_and_kwargs_amended :
    (∀ (fa : FnABI) (ins : List AbiInput) (args : List PyVal)
      (kwargs : List (String × PyVal)), fa.inputs = some ins →
      args.length + kwargs.length ≠ ins.length →
      merge_args_and_kwargs fa args kwargs = .error .argCount) ∧
    (∀ (fa : FnABI) (ins : List AbiInput) (args : List PyVal),
      fa.inputs = some ins → args.length = ins.length →
      merge_args_and_kwargs fa args [] = .ok args) ∧
    (∀ (fa : FnABI) (ins : List AbiInput) (args : List PyVal)
      (kwargs : List (String × PyVal)), fa.inputs = some ins →
      args.length + kwargs.length = ins.length →
      (ins.map AbiInput.name).Nodup →
      (kwargs.map Prod.fst).Nodup →
      (∀ kv ∈ kwargs, kv.1 ∈ ins.map AbiInput.name) →
      (∀ kv ∈ kwargs, kv.1 ∉ (ins.map AbiInput.name).take args.length) →
      merge_args_and_kwargs fa args kwargs = .ok (mergedSpec ins args kwargs)) := by
  refine ⟨?_, ?_, ?_⟩
  · intro fa ins args kwargs hins hne
    rw [merge_args_and_kwargs, hins]
    rw [if_pos (by simpa using hne)]
  · intro fa ins args hins hlen
    rw [merge_args_and_kwargs, hins]
    rw [if_neg (by simp [hlen])]
    rfl
  · intro fa ins args kwargs hins hlen hnd hknd hsub hnot
    by_cases hkw : kwargs = []
    · subst hkw
      have hal : args.length = ins.length := by simpa using hlen
      rw [merge_args_and_kwargs, hins, mergedSpec_no_kwargs ins args [] hal]
      rw [if_neg (by simp [hal])]
      rfl
    · have hanle : args.length ≤ ins.length := by omega
      have hbuild := buildArgsAsKwargs_eq ins args hanle hnd
      have hc2 : ¬ (kwargs.isEmpty = true) := by
        cases kwargs with
        | nil => exact absurd rfl hkw
        | cons a l => simp
      have hc3 : ((buildArgsAsKwargs ins args).any
          fun kv => kwargs.any fun kw => kw.1 = kv.1) = false := by
        rw [hbuild, List.any_eq_false]
        intro kv hkv
        simp only [List.any_eq_true, decide_eq_true_eq, not_exists, not_and]
        intro kw hkwm heq
        obtain ⟨p, hp, rfl⟩ := List.mem_map.mp hkv
        have h1 : p.1.name ∈ (ins.map AbiInput.name).take args.length := by
          rw [← zip_map_name_take ins args hanle]
          exact List.mem_map_of_mem (fun p => p.1.name) hp
        exact hnot kw hkwm (heq ▸ h1)
      have hc4 : (kwargs.any
          fun kw => ¬ (ins.map AbiInput.name).contains kw.1) = false := by
        rw [List.any_eq_false]
        intro kw hkw
        simp only [decide_eq_true_eq, not_not]
        simpa using hsub kw hkw
      rw [merge_args_and_kwargs, hins]
      simp only [Option.getD_some]
      rw [if_neg (by omega : ¬ args.length + kwargs.length ≠ ins.length), if_neg hc2,
        hc3]
      simp only [Bool.false_eq_true, if_false]
      rw [hc4]
      simp only [Bool.false_eq_true, if_false]
      rw [hbuild]
      exact congrArg Except.ok
        (merge_sorted_eq ins args kwargs hlen hnd hknd hsub hnot)

/-- C3 witness: a three-input descriptor called with one positional and two
keyword arguments, evaluated through the amended theorem. -/
theorem C3_merge_args_and_kwargs_amended_witness :
    (FnABI.mk "function" (some "f")
        (some [.mk "a" "uint256" [], .mk "b" "uint256" [], .mk "c" "uint256" []])).inputs
      = some [.mk "a" "uint256" [], .mk "b" "uint256" [], .mk "c" "uint256" []] ∧
    merge_args_and_kwargs
        (FnABI.mk "function" (some "f")
          (some [.mk "a" "uint256" [], .mk "b" "uint256" [], .mk "c" "uint256" []]))
        [.intV 1] [("c", .intV 3), ("b", .intV 2)]
      = .ok (mergedSpec [.mk "a" "uint256" [], .mk "b" "uint256" [], .mk "c" "uint256" []]
          [.intV 1] [("c", .intV 3), ("b", .intV 2)]) ∧
    mergedSpec [.mk "a" "uint256" [], .mk "b" "uint256" [], .mk "c" "uint256" []]
        [.intV 1] [("c", .intV 3), ("b", .intV 2)]
      = [.intV 1, .intV 2, .intV 3] :=
  ⟨rfl,
   C3_merge_args_and_kwargs_amended.2.2
     (FnABI.mk "function" (some "f")
       (some [.mk "a" "uint256" [], .mk "b" "uint256" [], .mk "c" "uint256" []]))
     [.mk "a" "uint256" [], .mk "b" "uint256" [], .mk "c" "uint256" []]
     [.intV 1] [("c", .intV 3), ("b", .intV 2)]
     rfl rfl (by decide) (by decide) (by decide) (by decide),
   rfl⟩

/-- C3 counterexample: with duplicate input names (three inputs named
`x`, `x`, `y`), two positional arguments and the kwarg `y`, the
args-as-kwargs dict collapses the two `x` entries, so the merge returns only
two values `(2, 3)` instead of the three claimed ordered argument values
`(1, 2, 3)` — the claim's hypotheses (count matches, no collision, kwarg
names known) all hold at this input. -/
theorem C3_counterexample :
    merge_args_and_kwargs
        (FnABI.mk "function" (some "f")
          (some [.mk "x" "uint256" [], .mk "x" "uint256" [], .mk "y" "uint256" []]))
        [.intV 1, .intV 2] [("y", .intV 3)]
      = .ok [.intV 2, .intV 3] ∧
    ([PyVal.intV 2, PyVal.intV 3].length = 3 → False) ∧
    mergedSpec [.mk "x" "uint256" [], .mk "x" "uint256" [], .mk "y" "uint256" []]
        [.intV 1, .intV 2] [("y", .intV 3)]
      = [.intV 1, .intV 2, .intV 3] :=
  ⟨rfl, by decide, rfl⟩

/-! ## Claim C4: filter_by_encodability / check_if_arguments_can_be_encoded -/

/-- C4, amended: `filter_by_encodability` returns the sublist, in original
order, of descriptors whose arguments check out, and
`check_if_arguments_can_be_encoded` absorbs every `TypeError` raised by
`merge_args_and_kwargs` (wrong arity, duplicate keyword, unknown keyword) as
`False` — but only those: when merging succeeds, a tuple-typed input whose
supplied value is neither a mapping nor a tuple makes `get_abi_inputs` raise
an uncaught `TypeError`, which propagates out of both functions; and the
final encodability pass zips the produced types list (which has entries only
for tuple-typed inputs) against the full argument list, so it checks only a
prefix. -/
theorem C4_filter_by_encodability_amended :
    (∀ (ext : Ext) (args : List PyVal) (kwargs : List (String × PyVal))
      (abi : List FnABI),
      (∀ fa ∈ abi, check_if_arguments_can_be_encoded ext fa args kwargs ≠ none) →
      filter_by_encodability ext args kwargs abi
        = some (abi.filter
            fun fa => (check_if_arguments_can_be_encoded ext fa args kwargs).getD false)) ∧
    (∀ (ext : Ext) (fa : FnABI) (args : List PyVal) (kwargs : List (String × PyVal))
      (e : MergeErr), merge_args_and_kwargs fa args kwargs = .error e →
      e ≠ .missingInputsKey →
      check_if_arguments_can_be_encoded ext fa args kwargs = some false) := by
  constructor
  · intro ext args kwargs abi hnone
    induction abi with
    | nil => rfl
    | cons fa rest ih =>
      rw [filter_by_encodability]
      cases hc : check_if_arguments_can_be_encoded ext fa args kwargs with
      | none => exact absurd hc (hnone fa (by simp))
      | some b =>
        rw [ih fun g hg => hnone g (by simp [hg])]
        cases b with
        | false => simp [List.filter_cons, hc]
        | true => simp [List.filter_cons, hc]
  · intro ext fa args kwargs e hmerge hne
    rw [check_if_arguments_can_be_encoded, hmerge]
    cases e with
    | argCount => rfl
    | missingInputsKey => exact absurd rfl hne
    | multipleValues => rfl
    | unexpectedKeyword => rfl

/-- C4 witness: a one-input descriptor called with two positional arguments
(merge raises the argument-count `TypeError`, absorbed as `False`), and the
filter keeping a matching descriptor while dropping the arity-mismatched
call evaluated through the theorem. -/
theorem C4_filter_by_encodability_amended_witness :
    (∀ fa ∈ [FnABI.mk "function" (some "f") (some [.mk "a" "uint256" []])],
      check_if_arguments_can_be_encoded extModel fa [.intV 1, .intV 2] [] ≠ none) ∧
    filter_by_encodability extModel [.intV 1, .intV 2] []
        [FnABI.mk "function" (some "f") (some [.mk "a" "uint256" []])]
      = some ([FnABI.mk "function" (some "f") (some [.mk "a" "uint256" []])].filter
          fun fa => (check_if_arguments_can_be_encoded extModel fa
            [.intV 1, .intV 2] []).getD false) ∧
    merge_args_and_kwargs (FnABI.mk "function" (some "f") (some [.mk "a" "uint256" []]))
        [.intV 1, .intV 2] [] = .error .argCount ∧
    check_if_arguments_can_be_encoded extModel
        (FnABI.mk "function" (some "f") (some [.mk "a" "uint256" []]))
        [.intV 1, .intV 2] [] = some false := by
  refine ⟨by decide, ?_, rfl, ?_⟩
  · exact C4_filter_by_encodability_amended.1 extModel [.intV 1, .intV 2] [] _ (by decide)
  · exact C4_filter_by_encodability_amended.2 extModel
      (FnABI.mk "function" (some "f") (some [.mk "a" "uint256" []]))
      [.intV 1, .intV 2] [] .argCount rfl (fun h => MergeErr.noConfusion h)

/-- C4 counterexample: a descriptor with one tuple-typed input, called with
a list `[1, 2]` in place of the tuple — a data-driven shape mismatch the
claim says is absorbed as `False`.  `get_abi_inputs` raises the
"Unknown value type" `TypeError`, which `check_if_arguments_can_be_encoded`
does not catch, so the check and the whole `filter_by_encodability` raise
instead of filtering. -/
theorem C4_counterexample :
    check_if_arguments_can_be_encoded extModel
        (FnABI.mk "function" (some "f")
          (some [.mk "o" "tuple" [.mk "a" "uint256" [], .mk "b" "uint256" []]]))
        [.listV [.intV 1, .intV 2]] [] = none ∧
    ((none : Option Bool) = some false → False) ∧
    filter_by_encodability extModel [.listV [.intV 1, .intV 2]] []
        [FnABI.mk "function" (some "f")
          (some [.mk "o" "tuple" [.mk "a" "uint256" [], .mk "b" "uint256" []]])]
      = none :=
  ⟨rfl, fun h => Option.noConfusion h, rfl⟩

theorem collapseComponents_depth1 (comps : List AbiInput)
    (h : (comps.all fun c => ¬ (c.type = "tuple")) = true) :
    collapseComponents comps = comps.map AbiInput.type := by
  induction comps with
  | nil => rfl
  | cons c rest ih =>
    rw [List.all_cons, Bool.and_eq_true] at h
    have hc : ¬ (c.type = "tuple") := of_decide_eq_true h.1
    rw [collapseComponents, ih h.2, List.map_cons]
    congr 1
    cases c with
    | mk nm t cs =>
      rw [collapse_if_tuple, if_pos (by simpa [AbiInput.type] using hc)]
      rfl

theorem mapM_lookup_some (kvs : List (String × PyVal)) (comps : List AbiInput)
    (h : ∀ c ∈ comps, (lookupStr kvs c.name).isSome = true) :
    comps.mapM (fun c => lookupStr kvs c.name)
      = some (comps.map fun c => (lookupStr kvs c.name).getD .noneV) := by
  induction comps with
  | nil => rfl
  | cons c rest ih =>
    rw [List.mapM_cons]
    cases hc : lookupStr kvs c.name with
    | none => exact absurd (hc ▸ h c (by simp)) (by simp)
    | some v =>
      rw [ih fun d hd => h d (by simp [hd])]
      simp [hc]

theorem tupleComponentValues_dict (comps : List AbiInput) (kvs : List (String × PyVal))
    (hklen : kvs.length = comps.length)
    (hksome : ∀ c ∈ comps, (lookupStr kvs c.name).isSome = true) :
    tupleComponentValues comps (.dictV kvs)
      = .ok (comps.map AbiInput.type,
          comps.map fun c => (lookupStr kvs c.name).getD .noneV) := by
  simp only [tupleComponentValues]
  rw [hklen, Nat.min_self, List.take_length, mapM_lookup_some kvs comps hksome]

theorem tupleComponentValues_tuple (comps : List AbiInput) (xs : List PyVal)
    (hxlen : xs.length = comps.length) :
    tupleComponentValues comps (.tupleV xs) = .ok (comps.map AbiInput.type, xs) := by
  simp only [tupleComponentValues]
  rw [hxlen, Nat.min_self, List.take_length, ← hxlen, List.take_length]

theorem getAbiInputsGo_ok (l : List (AbiInput × PyVal))
    (hfits : ∀ p ∈ l, c6fits p.1 p.2) :
    getAbiInputsGo l = .ok
      ((l.filter fun p => p.1.type == "tuple").map fun p => collapse_if_tuple p.1,
       l.map fun p => c6val p.1 p.2) := by
  induction l with
  | nil => rfl
  | cons p rest ih =>
    obtain ⟨i, v⟩ := p
    have ihr := ih fun q hq => hfits q (by simp [hq])
    rw [getAbiInputsGo]
    by_cases ht : i.type = "tuple"
    · obtain ⟨hd1, hcase⟩ := (hfits (i, v) (by simp)) ht
      rw [if_pos ht, ihr]
      have hcoll : "(" ++ joinComma (i.components.map AbiInput.type) ++ ")"
          = collapse_if_tuple i := by
        obtain ⟨nm, t, cs⟩ := i
        simp only [AbiInput.type] at ht
        subst ht
        rw [collapse_if_tuple, if_neg (by simp)]
        rw [collapseComponents_depth1 cs
          (by simpa [depth1Tuple, AbiInput.components] using hd1)]
        rfl
      rcases hcase with ⟨kvs, rfl, hklen, hksome⟩ | ⟨xs, rfl, hxlen⟩
      · rw [tupleComponentValues_dict i.components kvs hklen hksome]
        dsimp only
        rw [List.filter_cons_of_pos (by simpa using ht), List.map_cons, List.map_cons,
          hcoll]
        have hval : c6val i (.dictV kvs)
            = .tupleV (i.components.map fun c => (lookupStr kvs c.name).getD .noneV) := by
          rw [c6val.eq_def, if_pos ht]
        rw [hval]
      · rw [tupleComponentValues_tuple i.components xs hxlen]
        dsimp only
        rw [List.filter_cons_of_pos (by simpa using ht), List.map_cons, List.map_cons,
          hcoll]
        have hval : c6val i (.tupleV xs) = .tupleV xs := by
          rw [c6val.eq_def, if_pos ht]
        rw [hval]
    · rw [if_neg ht, ihr]
      dsimp only
      rw [List.filter_cons_of_neg (by simpa using ht), List.map_cons]
      have hval : c6val i v = v := by rw [c6val.eq_def, if_neg ht]
      rw [hval]

/-- C6, amended: for every descriptor with an `inputs` field and arguments
zipped pairwise well-shaped (`c6fits`): for each input whose declared type
is `tuple` **of nesting depth 1** (no tuple components), `get_abi_inputs`
contributes to its types list exactly the collapsed string
`collapse_if_tuple` produces, and flattens the value into a plain tuple of
component values, by name for a mapping and by position for a tuple; the
types list receives entries only for tuple-typed inputs, non-tuple values
pass through; and a tuple-typed input given a value of any other shape
(e.g. a list) fails with a `TypeError`.  For nested tuple components the
code emits the literal string `tuple` instead of recursing, so the claimed
agreement with `collapse_if_tuple` at arbitrary depth fails. -/
theorem C6_get_abi_inputs_amended :
    (∀ (fa : FnABI) (ins : List AbiInput) (args : List PyVal),
      fa.inputs = some ins →
      (∀ p ∈ ins.zip args, c6fits p.1 p.2) →
      get_abi_inputs fa args = .ok
        (((ins.zip args).filter fun p => p.1.type == "tuple").map
            fun p => collapse_if_tuple p.1,
         (ins.zip args).map fun p => c6val p.1 p.2)) ∧
    (∀ (fa : FnABI) (i : AbiInput) (xs : List PyVal),
      fa.inputs = some [i] → i.type = "tuple" → i.components ≠ [] → xs ≠ [] →
      get_abi_inputs fa [.listV xs] = .error .typeErr) := by
  constructor
  · intro fa ins args hins hfits
    rw [get_abi_inputs, hins]
    exact getAbiInputsGo_ok (ins.zip args) hfits
  · intro fa i xs hins ht hcne hxne
    rw [get_abi_inputs, hins]
    show getAbiInputsGo [(i, PyVal.listV xs)] = .error .typeErr
    rw [getAbiInputsGo]
    rw [if_pos ht, tupleComponentValues]
    rw [if_neg (by
      rintro (h | h)
      · exact hcne (List.length_eq_zero.mp h)
      · exact hxne (List.length_eq_zero.mp h))]

/-- C6 witness: a descriptor with a depth-1 tuple input and a plain input,
its tuple argument given once as a dict and once as a tuple, both flattening
to the same output with the collapse_if_tuple type string; plus the
`TypeError` on a list-shaped tuple argument. -/
theorem C6_get_abi_inputs_amended_witness :
    (∀ p ∈ ([AbiInput.mk "o" "tuple" [.mk "a" "uint256" [], .mk "b" "uint256" []],
        .mk "n" "uint256" []].zip
        [PyVal.dictV [("a", .intV 1), ("b", .intV 2)], .intV 7]), c6fits p.1 p.2) ∧
    get_abi_inputs
        (FnABI.mk "function" (some "f")
          (some [.mk "o" "tuple" [.mk "a" "uint256" [], .mk "b" "uint256" []],
                 .mk "n" "uint256" []]))
        [PyVal.dictV [("a", .intV 1), ("b", .intV 2)], .intV 7]
      = .ok (["(uint256,uint256)"], [.tupleV [.intV 1, .intV 2], .intV 7]) ∧
    get_abi_inputs
        (FnABI.mk "function" (some "f")
          (some [.mk "o" "tuple" [.mk "a" "uint256" [], .mk "b" "uint256" []],
                 .mk "n" "uint256" []]))
        [PyVal.tupleV [.intV 1, .intV 2], .intV 7]
      = .ok (["(uint256,uint256)"], [.tupleV [.intV 1, .intV 2], .intV 7]) ∧
    get_abi_inputs
        (FnABI.mk "function" (some "f")
          (some [.mk "o" "tuple" [.mk "a" "uint256" [], .mk "b" "uint256" []]]))
        [PyVal.listV [.intV 1, .intV 2]]
      = .error .typeErr := by
  have hfits : ∀ p ∈ ([AbiInput.mk "o" "tuple" [.mk "a" "uint256" [], .mk "b" "uint256" []],
      .mk "n" "uint256" []].zip
      [PyVal.dictV [("a", .intV 1), ("b", .intV 2)], .intV 7]), c6fits p.1 p.2 := by
    intro p hp
    cases hp with
    | head =>
      intro ht
      exact ⟨by decide, Or.inl ⟨[("a", .intV 1), ("b", .intV 2)], rfl, by decide, by decide⟩⟩
    | tail _ hp2 =>
      cases hp2 with
      | head => intro ht; exact absurd ht (by decide)
      | tail _ hp3 => cases hp3
  refine ⟨hfits, ?_, ?_, ?_⟩
  · have := C6_get_abi_inputs_amended.1
      (FnABI.mk "function" (some "f")
        (some [.mk "o" "tuple" [.mk "a" "uint256" [], .mk "b" "uint256" []],
               .mk "n" "uint256" []]))
      [.mk "o" "tuple" [.mk "a" "uint256" [], .mk "b" "uint256" []], .mk "n" "uint256" []]
      [PyVal.dictV [("a", .intV 1), ("b", .intV 2)], .intV 7] rfl hfits
    rw [this]
    rfl
  · rfl
  · exact C6_get_abi_inputs_amended.2
      (FnABI.mk "function" (some "f")
        (some [.mk "o" "tuple" [.mk "a" "uint256" [], .mk "b" "uint256" []]]))
      (.mk "o" "tuple" [.mk "a" "uint256" [], .mk "b" "uint256" []])
      [.intV 1, .intV 2] rfl rfl (fun h => List.noConfusion h) (fun h => List.noConfusion h)

/-- C6 counterexample: a tuple input with a nested tuple component.  The
claim says `get_abi_inputs` produces the fully collapsed
`collapse_if_tuple` string `"(uint256,(uint256))"` at arbitrary nesting
depth; the code appends the raw component `type` field, emitting the
literal `"(uint256,tuple)"` instead, and does not flatten the nested value
recursively. -/
theorem C6_counterexample :
    get_abi_inputs
        (FnABI.mk "function" (some "f")
          (some [.mk "o" "tuple"
            [.mk "a" "uint256" [], .mk "b" "tuple" [.mk "c" "uint256" []]]]))
        [PyVal.tupleV [.intV 1, .tupleV [.intV 2]]]
      = .ok (["(uint256,tuple)"], [.tupleV [.intV 1, .tupleV [.intV 2]]]) ∧
    collapse_if_tuple
        (.mk "o" "tuple" [.mk "a" "uint256" [], .mk "b" "tuple" [.mk "c" "uint256" []]])
      = "(uint256,(uint256))" ∧
    ("(uint256,tuple)" : String) ≠ "(uint256,(uint256))" :=
  ⟨rfl, rfl, by decide⟩

/-! ## Claim C10: abi_sub_tree stores canonical types -/

theorem process_type_not_paren (t : String) (trip : String × String × List (Option Nat))
    (hp : process_type t = some trip) : startsParen t = false := by
  unfold startsParen
  cases ht : t.toList with
  | nil => rfl
  | cons c rest =>
    by_cases hc : c = '('
    · subst hc
      exfalso
      rw [process_type, ht] at hp
      have hpb : ∀ r : List Char, parseBase ('(' :: r) = none := by
        intro r
        rw [parseBase]
        rw [if_pos ?_]
        show ¬ ((('(' :: r).drop (('(' :: r).takeWhile Char.isAlpha).length).all
          Char.isDigit = true)
        rw [List.takeWhile_cons, if_neg (by decide)]
        simp
      cases hsp : splitCh '[' rest with
      | nil =>
        rw [splitCh, hsp, if_neg (by decide)] at hp
        simp [hpb] at hp
      | cons r rs =>
        rw [splitCh, hsp, if_neg (by decide)] at hp
        simp [hpb] at hp
    · split
      · next heq =>
        rw [List.cons.injEq] at heq
        exact absurd heq.1 hc
      · rfl

/-- C10, amended: for every non-tuple, non-`None` type string accepted by
the external type decomposer **whose length is not exactly 3**, the typed
node built by `abi_sub_tree` stores the canonical re-collapsed type string
obtained by decomposing and re-collapsing the input (e.g. `"uint"` is
stored as `"uint256"`).  Type strings of length exactly 3 — such as
`"int"` — are destructured char-wise by the tuple unpacking in
`abi_sub_tree` instead of being parsed, and store a garbled type. -/
theorem C10_abi_sub_tree_amended (t b s : String) (arr : List (Option Nat))
    (v node : PyVal) (hp : process_type t = some (b, s, arr))
    (hlen : t.toList.length ≠ 3) (hnode : abi_sub_tree (some t) v = some node) :
    ∃ d, node = .typed (some (collapse_type b s arr)) d := by
  rw [abi_sub_tree] at hnode
  rw [if_neg (by rw [process_type_not_paren t _ hp]; simp)] at hnode
  have hmatch : (match t.toList with
      | [c0, c1, c2] => subTreeCore (String.mk [c0]) (String.mk [c1]) (.chs [c2]) v
      | _ =>
        match process_type t with
        | none => none
        | some (b, s, arr) => subTreeCore b s (.lst arr) v) = subTreeCore b s (.lst arr) v := by
    split
    · next c0 c1 c2 heq => exact absurd (by rw [heq]; rfl) hlen
    · rw [hp]
  rw [hmatch] at hnode
  have hcoll : collapseA b s (.lst arr) = collapse_type b s arr := rfl
  cases v with
  | listV xs =>
    rw [subTreeCore] at hnode
    split at hnode
    · obtain ⟨cs, hcs, hEq⟩ := Option.map_eq_some'.mp hnode
      exact ⟨.listV cs, by rw [← hEq, hcoll]⟩
    · exact ⟨.listV xs, by rw [← Option.some_inj.mp hnode, hcoll]⟩
  | tupleV xs =>
    rw [subTreeCore] at hnode
    split at hnode
    · obtain ⟨cs, hcs, hEq⟩ := Option.map_eq_some'.mp hnode
      exact ⟨.listV cs, by rw [← hEq, hcoll]⟩
    · exact ⟨.tupleV xs, by rw [← Option.some_inj.mp hnode, hcoll]⟩
  | intV n =>
    simp only [subTreeCore] at hnode
    split at hnode
    · cases hnode
    · exact ⟨.intV n, by rw [← Option.some_inj.mp hnode, hcoll]⟩
  | strV sv =>
    simp only [subTreeCore] at hnode
    split at hnode
    · cases hnode
    · exact ⟨.strV sv, by rw [← Option.some_inj.mp hnode, hcoll]⟩
  | bytesV bv =>
    simp only [subTreeCore] at hnode
    split at hnode
    · cases hnode
    · exact ⟨.bytesV bv, by rw [← Option.some_inj.mp hnode, hcoll]⟩
  | boolV bv =>
    simp only [subTreeCore] at hnode
    split at hnode
    · cases hnode
    · exact ⟨.boolV bv, by rw [← Option.some_inj.mp hnode, hcoll]⟩
  | noneV =>
    simp only [subTreeCore] at hnode
    split at hnode
    · cases hnode
    · exact ⟨.noneV, by rw [← Option.some_inj.mp hnode, hcoll]⟩
  | dictV kvs =>
    simp only [subTreeCore] at hnode
    split at hnode
    · cases hnode
    · exact ⟨.dictV kvs, by rw [← Option.some_inj.mp hnode, hcoll]⟩
  | typed t2 d =>
    simp only [subTreeCore] at hnode
    split at hnode
    · cases hnode
    · exact ⟨.typed t2 d, by rw [← Option.some_inj.mp hnode, hcoll]⟩

/-- C10 witness: the docstring example — the input type `"uint"` is stored
(and would be passed to normalizers) as `"uint256"`. -/
theorem C10_abi_sub_tree_amended_witness :
    process_type "uint" = some ("uint", "256", []) ∧
    ("uint".toList.length = 3 → False) ∧
    abi_sub_tree (some "uint") (.intV 0) = some (.typed (some "uint256") (.intV 0)) ∧
    ∃ d, PyVal.typed (some "uint256") (.intV 0)
      = .typed (some (collapse_type "uint" "256" [])) d :=
  ⟨rfl, by decide, rfl,
   C10_abi_sub_tree_amended "uint" "uint" "256" [] (.intV 0)
     (.typed (some "uint256") (.intV 0)) rfl (by decide) rfl⟩

/-- C10 counterexample: the type string `"int"` is accepted by the
decomposer (normalizing to `int256`), but `abi_sub_tree` destructures the
3-character string into `base='i', sub='n', arrlist='t'`, treats it as an
array type, and stores the garbled type `"in't'"` rather than the canonical
`"int256"`. -/
theorem C10_counterexample :
    process_type "int" = some ("int", "256", []) ∧
    collapse_type "int" "256" [] = "int256" ∧
    abi_sub_tree (some "int") (.listV [.intV 5])
      = some (.typed (some "in't'") (.listV [.typed (some "in") (.intV 5)])) ∧
    (∀ d, PyVal.typed (some "in't'") (.listV [.typed (some "in") (.intV 5)])
        = .typed (some "int256") d → False) := by
  refine ⟨rfl, rfl, rfl, ?_⟩
  intro d h
  injection h with h1 h2
  exact absurd h1 (by decide)

/-! ## Claim C9: zip truncation to the shorter list -/

theorem recursiveMapList_length (f : PyVal → PyVal) (xs : List PyVal) :
    (recursiveMapList f xs).length = xs.length := by
  induction xs with
  | nil => rfl
  | cons x xs ih => simp [recursiveMapList, ih]

theorem data_tree_map_listV (f : String → PyVal → String × PyVal) (xs : List PyVal) :
    data_tree_map f (.listV xs)
      = .listV (recursiveMapList (map_to_typed_data f) xs) := rfl

theorem stripTypes_listV (xs : List PyVal) :
    stripTypes (.listV xs) = .listV (recursiveMapList strip_abi_type xs) := rfl

theorem foldlTreeMap_listV (nfs : List (String → PyVal → String × PyVal))
    (xs : List PyVal) :
    ∃ ys, nfs.foldl (fun acc f => data_tree_map f acc) (.listV xs) = .listV ys
      ∧ ys.length = xs.length := by
  induction nfs generalizing xs with
  | nil => exact ⟨xs, rfl, rfl⟩
  | cons f nfs ih =>
    obtain ⟨ys, hy, hl⟩ := ih (recursiveMapList (map_to_typed_data f) xs)
    refine ⟨ys, ?_, ?_⟩
    · rw [List.foldl_cons, data_tree_map_listV, hy]
    · rw [hl, recursiveMapList_length]

theorem mapM_option_some_length {α β : Type} (f : α → Option β) (l : List α)
    (h : ∀ x ∈ l, (f x).isSome = true) :
    ∃ r, l.mapM f = some r ∧ r.length = l.length := by
  induction l with
  | nil => exact ⟨[], rfl, rfl⟩
  | cons x xs ih =>
    obtain ⟨r, hr, hlen⟩ := ih fun y hy => h y (by simp [hy])
    cases hx : f x with
    | none => exact absurd (hx ▸ h x (by simp)) (by simp)
    | some y =>
      refine ⟨y :: r, ?_, by simp [hlen]⟩
      rw [List.mapM_cons, hx, hr]
      rfl

/-- C9, amended: when every zipped (type, value) pair is individually
accepted by `abi_sub_tree`, `abi_data_tree` on lists of unequal length
raises no error and returns a tree with exactly
`min (types.length) (data.length)` nodes, silently dropping the excess
entries of the longer list, and `map_abi_data` with any normalizer pipeline
likewise returns a list of that minimum length.  Without that proviso the
truncated zip can still raise: an invalid type string in the shared prefix
makes `abi_data_tree` (and hence `map_abi_data`) fail. -/
theorem C9_abi_data_tree_amended (types : List (Option String)) (data : List PyVal)
    (hok : ∀ p ∈ types.zip data, (abi_sub_tree p.1 p.2).isSome = true) :
    ∃ tree, abi_data_tree types data = some tree
      ∧ tree.length = min types.length data.length
      ∧ ∀ nfs, ∃ res, map_abi_data nfs types data = some (.listV res)
          ∧ res.length = min types.length data.length := by
  obtain ⟨tree, htree, hlen⟩ :=
    mapM_option_some_length (fun td => abi_sub_tree td.1 td.2) (types.zip data) hok
  have hmin : tree.length = min types.length data.length := by
    rw [hlen, List.length_zip]
  refine ⟨tree, htree, hmin, fun nfs => ?_⟩
  obtain ⟨ys, hys, hyslen⟩ := foldlTreeMap_listV nfs tree
  refine ⟨recursiveMapList strip_abi_type ys, ?_, ?_⟩
  · rw [map_abi_data, abi_data_tree, htree, Option.map_some', hys, stripTypes_listV]
  · rw [recursiveMapList_length, hyslen, hmin]

/-- C9 witness: one type against two data values — the second value is
silently dropped, through the whole `map_abi_data` pipeline as well. -/
theorem C9_abi_data_tree_amended_witness :
    (∀ p ∈ ([some "uint256"] : List (Option String)).zip
        ([.intV 1, .intV 2] : List PyVal), (abi_sub_tree p.1 p.2).isSome = true) ∧
    (∃ tree, abi_data_tree [some "uint256"] [.intV 1, .intV 2] = some tree
      ∧ tree.length = min 1 2
      ∧ ∀ nfs, ∃ res, map_abi_data nfs [some "uint256"] [.intV 1, .intV 2]
          = some (.listV res) ∧ res.length = min 1 2) :=
  ⟨by decide, C9_abi_data_tree_amended [some "uint256"] [.intV 1, .intV 2] (by decide)⟩

/-- C9 counterexample: the unrecognized type string `"foobar"` sits in the
zipped prefix of two lists of unequal length, so `abi_data_tree` and
`map_abi_data` raise instead of returning a `min`-length result — the
original claim promised no error for every unequal-length pair of lists. -/
theorem C9_counterexample :
    abi_data_tree [some "foobar"] [.intV 1, .intV 2] = none ∧
    map_abi_data [] [some "foobar"] [.intV 1, .intV 2] = none ∧
    (∀ tree : List PyVal,
      abi_data_tree [some "foobar"] [.intV 1, .intV 2] = some tree → False) := by
  refine ⟨rfl, rfl, ?_⟩
  intro tree h
  cases h

/-- C1 counterexample: at the nested tuple type `"((uint256,uint256))"` with
value `((1, 2),)`, the claim's right-hand side holds (one top-level
component `"(uint256,uint256)"`, matching arity 1, the component/value pair
encodable), yet `is_encodable` returns `False`: the code's
`_type.strip("()").split(",")` strips both outer parentheses and splits
inside the nested tuple, producing two fragments against one value. -/
theorem C1_counterexample :
    claimTupleEncodable extModel "((uint256,uint256))"
        (.tupleV [.tupleV [.intV 1, .intV 2]]) ∧
      ¬ is_encodable extModel "((uint256,uint256))"
        (.tupleV [.tupleV [.intV 1, .intV 2]]) = some true := by
  constructor
  · exact ⟨[.tupleV [.intV 1, .intV 2]], Or.inr rfl, by decide, by decide⟩
  · intro h
    rw [show is_encodable extModel "((uint256,uint256))"
        (.tupleV [.tupleV [.intV 1, .intV 2]]) = some false by decide] at h
    cases h

/-! ## Clean values and the strip round trip -/

theorem recursive_map_typed (h : PyVal → PyVal) (t : Option String) (d : PyVal) :
    recursive_map h (.typed t d) = h (.typed t (recursive_map h d)) := rfl

theorem recursive_map_listV (h : PyVal → PyVal) (xs : List PyVal) :
    recursive_map h (.listV xs) = h (.listV (recursiveMapList h xs)) := rfl

theorem recursive_map_tupleV (h : PyVal → PyVal) (xs : List PyVal) :
    recursive_map h (.tupleV xs) = h (.tupleV (recursiveMapList h xs)) := rfl

theorem recursive_map_dictV (h : PyVal → PyVal) (kvs : List (String × PyVal)) :
    recursive_map h (.dictV kvs) = h (.dictV (recursiveMapDict h kvs)) := rfl

theorem strip_abi_type_id (w : PyVal) (hw : isTypedNode w = false) :
    strip_abi_type w = w := by
  cases w with
  | typed t d => simp [isTypedNode] at hw
  | intV n => rfl
  | strV s => rfl
  | bytesV b => rfl
  | boolV b => rfl
  | noneV => rfl
  | listV xs => rfl
  | tupleV xs => rfl
  | dictV kvs => rfl

theorem map_to_typed_data_id (f : String → PyVal → String × PyVal) (w : PyVal)
    (hw : isTypedNode w = false) : map_to_typed_data f w = w := by
  cases w with
  | typed t d => simp [isTypedNode] at hw
  | intV n => rfl
  | strV s => rfl
  | bytesV b => rfl
  | boolV b => rfl
  | noneV => rfl
  | listV xs => rfl
  | tupleV xs => rfl
  | dictV kvs => rfl

mutual

theorem clean_recursive_map : ∀ (v : PyVal) (h : PyVal → PyVal),
    (∀ w, isTypedNode w = false → h w = w) → cleanV v = true →
    recursive_map h v = v
  | .intV _, _, hid, _ => hid _ rfl
  | .strV _, _, hid, _ => hid _ rfl
  | .bytesV _, _, hid, _ => hid _ rfl
  | .boolV _, _, hid, _ => hid _ rfl
  | .noneV, _, hid, _ => hid _ rfl
  | .listV xs, h, hid, hc => by
    rw [recursive_map_listV,
      clean_recursiveMapList xs h hid (by simpa [cleanV] using hc)]
    exact hid _ rfl
  | .tupleV xs, h, hid, hc => by
    rw [recursive_map_tupleV,
      clean_recursiveMapList xs h hid (by simpa [cleanV] using hc)]
    exact hid _ rfl
  | .dictV kvs, h, hid, hc => by
    rw [recursive_map_dictV,
      clean_recursiveMapDict kvs h hid (by simpa [cleanV] using hc)]
    exact hid _ rfl
  | .typed _ _, _, _, hc => by rw [cleanV] at hc; cases hc
termination_by structural v => v

theorem clean_recursiveMapList : ∀ (xs : List PyVal) (h : PyVal → PyVal),
    (∀ w, isTypedNode w = false → h w = w) → cleanList xs = true →
    recursiveMapList h xs = xs
  | [], _, _, _ => rfl
  | x :: xs, h, hid, hc => by
    rw [cleanList, Bool.and_eq_true] at hc
    rw [recursiveMapList, clean_recursive_map x h hid hc.1,
      clean_recursiveMapList xs h hid hc.2]
termination_by structural l => l

theorem clean_recursiveMapDict : ∀ (kvs : List (String × PyVal)) (h : PyVal → PyVal),
    (∀ w, isTypedNode w = false → h w = w) → cleanDict kvs = true →
    recursiveMapDict h kvs = kvs
  | [], _, _, _ => rfl
  | (k, x) :: kvs, h, hid, hc => by
    rw [cleanDict, Bool.and_eq_true] at hc
    rw [recursiveMapDict, clean_recursive_map x h hid hc.1,
      clean_recursiveMapDict kvs h hid hc.2]
termination_by structural l => l

end

theorem clean_stripTypes (v : PyVal) (hc : cleanV v = true) : stripTypes v = v :=
  clean_recursive_map v strip_abi_type strip_abi_type_id hc

mutual

theorem wfCore_strip : ∀ (v : PyVal) (b s : String) (a : ArrL),
    wfCore b s a v = true →
    ∃ node, subTreeCore b s a v = some node ∧
      recursive_map strip_abi_type node = v
  | v, b, s, a, h => by
    rw [wfCore.eq_def] at h
    by_cases ht : a.truthy = true
    · rw [if_pos ht] at h
      cases v with
      | listV xs =>
        dsimp only at h
        rw [Bool.and_eq_true] at h
        obtain ⟨cs, hcs, hstrip⟩ := wfCoreList_strip xs b s a.dropOuter h.2
        refine ⟨.typed (some (collapseA b s a)) (.listV cs), ?_, ?_⟩
        · rw [subTreeCore, if_pos ht, hcs]
          rfl
        · rw [recursive_map_typed, recursive_map_listV]
          rw [show strip_abi_type (.listV (recursiveMapList strip_abi_type cs))
            = .listV (recursiveMapList strip_abi_type cs) from rfl]
          rw [hstrip]
          rfl
      | intV n => dsimp only at h; cases h
      | strV sv => dsimp only at h; cases h
      | bytesV bv => dsimp only at h; cases h
      | boolV bv => dsimp only at h; cases h
      | noneV => dsimp only at h; cases h
      | tupleV xs => dsimp only at h; cases h
      | dictV kvs => dsimp only at h; cases h
      | typed t2 d => dsimp only at h; cases h
    · rw [if_neg ht] at h
      refine ⟨.typed (some (collapseA b s a)) v, ?_, ?_⟩
      · rw [subTreeCore.eq_def, if_neg ht]
      · rw [recursive_map_typed,
          clean_recursive_map v strip_abi_type strip_abi_type_id h]
        rfl
termination_by structural v => v

theorem wfCoreList_strip : ∀ (xs : List PyVal) (b s : String) (a : ArrL),
    wfCoreList b s a xs = true →
    ∃ cs, subTreeChildren b s a xs = some cs ∧
      recursiveMapList strip_abi_type cs = xs
  | [], _, _, _, _ => ⟨[], rfl, rfl⟩
  | x :: xs, b, s, a, h => by
    rw [wfCoreList, Bool.and_eq_true] at h
    obtain ⟨c, hc, hcstrip⟩ := wfCore_strip x b s a h.1
    obtain ⟨cs, hcs, hstrip⟩ := wfCoreList_strip xs b s a h.2
    refine ⟨c :: cs, ?_, ?_⟩
    · rw [subTreeChildren, hc, hcs]
    · rw [recursiveMapList, hcstrip, hstrip]
termination_by structural l => l

end

theorem wfPair_strip (dt : Option String) (v : PyVal) (h : wfPair dt v = true) :
    ∃ node, abi_sub_tree dt v = some node ∧ stripTypes node = v := by
  cases dt with
  | none =>
    refine ⟨.typed none v, rfl, ?_⟩
    show recursive_map strip_abi_type (.typed none v) = v
    rw [recursive_map_typed,
      clean_recursive_map v strip_abi_type strip_abi_type_id (by simpa [wfPair] using h)]
    rfl
  | some t =>
    rw [wfPair] at h
    by_cases hp : startsParen t = true
    · rw [if_pos hp] at h
      rw [Bool.and_eq_true] at h
      refine ⟨.typed (some t) v, ?_, ?_⟩
      · rw [abi_sub_tree, if_pos ⟨hp, h.1⟩]
      · show recursive_map strip_abi_type (.typed (some t) v) = v
        rw [recursive_map_typed,
          clean_recursive_map v strip_abi_type strip_abi_type_id h.2]
        rfl
    · rw [if_neg hp] at h
      have hcond : ¬(startsParen t = true ∧ v.isTuple = true) := fun hand => hp hand.1
      split at h
      · next c0 c1 c2 heq =>
        obtain ⟨node, hnode, hstrip⟩ :=
          wfCore_strip v (String.mk [c0]) (String.mk [c1]) (.chs [c2]) h
        refine ⟨node, ?_, hstrip⟩
        rw [abi_sub_tree, if_neg hcond, heq]
        exact hnode
      · next hne =>
        split at h
        · cases h
        · next b2 s2 arr hpt =>
          obtain ⟨node, hnode, hstrip⟩ := wfCore_strip v b2 s2 (.lst arr) h
          refine ⟨node, ?_, hstrip⟩
          rw [abi_sub_tree, if_neg hcond]
          have hred : (match t.toList with
              | [c0, c1, c2] =>
                subTreeCore (String.mk [c0]) (String.mk [c1]) (.chs [c2]) v
              | _ =>
                match process_type t with
                | none => none
                | some (b, s, arr) => subTreeCore b s (.lst arr) v)
              = subTreeCore b2 s2 (.lst arr) v := by
            split
            · next c0 c1 c2 heq => exact absurd heq (by exact fun hh => hne c0 c1 c2 hh)
            · rw [hpt]
          rw [hred]
          exact hnode

theorem abi_data_tree_strip : ∀ (ts : List (Option String)) (ds : List PyVal),
    (∀ p ∈ ts.zip ds, wfPair p.1 p.2 = true) →
    ∃ tree, abi_data_tree ts ds = some tree ∧
      recursiveMapList strip_abi_type tree = (ts.zip ds).map Prod.snd := by
  intro ts
  induction ts with
  | nil => exact fun ds h => ⟨[], rfl, rfl⟩
  | cons t ts ih =>
    intro ds h
    cases ds with
    | nil => exact ⟨[], rfl, rfl⟩
    | cons d ds =>
      obtain ⟨node, hnode, hstrip⟩ := wfPair_strip t d (h (t, d) (by simp))
      obtain ⟨tree, htree, hstrips⟩ := ih ds (fun p hp => h p (by simp [hp]))
      refine ⟨node :: tree, ?_, ?_⟩
      · rw [abi_data_tree] at htree ⊢
        rw [List.zip_cons_cons, List.mapM_cons, hnode, htree]
        rfl
      · rw [recursiveMapList,
          show recursive_map strip_abi_type node = stripTypes node from rfl,
          hstrip, hstrips, List.zip_cons_cons, List.map_cons]

/-- C2, amended: for types and data lists of equal length whose zipped
pairs are well-formed — the value shapes the decorate/strip round trip is
faithful on: clean values, Python lists (not tuples) at every array level,
tuples at opaque tuple types — `map_abi_data` with an empty normalizer list
returns the data unchanged (as the decorated-then-stripped list).  The
round trip is not the identity on every matching shape: a tuple supplied
for an array type comes back as a list. -/
theorem C2_map_abi_data_amended (types : List (Option String)) (data : List PyVal)
    (hlen : types.length = data.length)
    (h : ∀ p ∈ types.zip data, wfPair p.1 p.2 = true) :
    map_abi_data [] types data = some (.listV data) := by
  obtain ⟨tree, htree, hstrip⟩ := abi_data_tree_strip types data h
  rw [map_abi_data, htree, Option.map_some', List.foldl_nil, stripTypes_listV,
    hstrip, List.map_snd_zip types data (le_of_eq hlen.symm)]

/-- C2 witness: a scalar, an array, an untyped entry and a tuple all pass
through the empty pipeline unchanged. -/
theorem C2_map_abi_data_amended_witness :
    ([some "uint256", some "bool[2]", none, some "(uint256,bool)"]
        : List (Option String)).length
      = ([.intV 1, .listV [.boolV true, .boolV false], .strV "x",
          .tupleV [.intV 2, .boolV true]] : List PyVal).length ∧
    (∀ p ∈ ([some "uint256", some "bool[2]", none, some "(uint256,bool)"]
        : List (Option String)).zip
        ([.intV 1, .listV [.boolV true, .boolV false], .strV "x",
          .tupleV [.intV 2, .boolV true]] : List PyVal),
      wfPair p.1 p.2 = true) ∧
    map_abi_data [] [some "uint256", some "bool[2]", none, some "(uint256,bool)"]
        [.intV 1, .listV [.boolV true, .boolV false], .strV "x",
          .tupleV [.intV 2, .boolV true]]
      = some (.listV [.intV 1, .listV [.boolV true, .boolV false], .strV "x",
          .tupleV [.intV 2, .boolV true]]) :=
  ⟨rfl, by decide, C2_map_abi_data_amended _ _ rfl (by decide)⟩

/-- C2 counterexample: a Python tuple supplied for the array type
`bool[2]` matches the declared shape, but the array branch of
`abi_sub_tree` rebuilds the children as a list comprehension, so the empty
pipeline returns a list where a tuple went in — not the data unchanged. -/
theorem C2_counterexample :
    map_abi_data [] [some "bool[2]"] [.tupleV [.boolV true, .boolV false]]
      = some (.listV [.listV [.boolV true, .boolV false]]) ∧
    some (PyVal.listV [.listV [.boolV true, .boolV false]])
      ≠ some (PyVal.listV [.tupleV [.boolV true, .boolV false]]) := by
  refine ⟨rfl, ?_⟩
  intro hyp
  injection hyp with h1
  injection h1 with h2
  injection h2 with h3 h4
  cases h3

/-! ## Claim C5: where data_tree_map applies the normalizer -/

theorem clean_wfNode (v : PyVal) (h : cleanV v = true) : wfNode v = true := by
  cases v with
  | typed t d => rw [cleanV] at h; cases h
  | listV xs => exact h
  | tupleV xs => exact h
  | intV n => exact h
  | strV s => exact h
  | bytesV b => exact h
  | boolV b => exact h
  | noneV => exact h
  | dictV kvs => exact h

theorem clean_wfNodeList (xs : List PyVal) (h : cleanList xs = true) :
    wfNodeList xs = true := by
  induction xs with
  | nil => rfl
  | cons x xs ih =>
    rw [cleanList, Bool.and_eq_true] at h
    rw [wfNodeList, Bool.and_eq_true]
    exact ⟨clean_wfNode x h.1, ih h.2⟩

mutual

theorem clean_claimedLeafMap : ∀ (v : PyVal) (f : String → PyVal → String × PyVal),
    cleanV v = true → claimedLeafMap f v = v
  | .listV xs, f, h => by
    rw [claimedLeafMap, clean_claimedLeafMapList xs f (by simpa [cleanV] using h)]
  | .tupleV xs, f, h => by
    rw [claimedLeafMap, clean_claimedLeafMapList xs f (by simpa [cleanV] using h)]
  | .typed _ _, _, h => by rw [cleanV] at h; cases h
  | .intV _, _, _ => rfl
  | .strV _, _, _ => rfl
  | .bytesV _, _, _ => rfl
  | .boolV _, _, _ => rfl
  | .noneV, _, _ => rfl
  | .dictV _, _, _ => rfl
termination_by structural v => v

theorem clean_claimedLeafMapList : ∀ (xs : List PyVal)
    (f : String → PyVal → String × PyVal),
    cleanList xs = true → claimedLeafMapList f xs = xs
  | [], _, _ => rfl
  | x :: xs, f, h => by
    rw [cleanList, Bool.and_eq_true] at h
    rw [claimedLeafMapList, clean_claimedLeafMap x f h.1,
      clean_claimedLeafMapList xs f h.2]
termination_by structural l => l

end

mutual

theorem subTreeCore_wfNode : ∀ (v : PyVal) (b s : String) (a : ArrL),
    wfCore b s a v = true → ∀ node, subTreeCore b s a v = some node →
      wfNode node = true
  | v, b, s, a, h, node, hnode => by
    rw [wfCore.eq_def] at h
    by_cases ht : a.truthy = true
    · rw [if_pos ht] at h
      cases v with
      | listV xs =>
        dsimp only at h
        rw [Bool.and_eq_true, Bool.not_eq_true'] at h
        rw [subTreeCore, if_pos ht] at hnode
        obtain ⟨cs, hcs, hEq⟩ := Option.map_eq_some'.mp hnode
        rw [← hEq, wfNode, if_neg (by rw [h.1]; exact fun hc => Bool.noConfusion hc)]
        exact subTreeChildren_wfNodeList xs b s a.dropOuter h.2 cs hcs
      | intV n => dsimp only at h; cases h
      | strV sv => dsimp only at h; cases h
      | bytesV bv => dsimp only at h; cases h
      | boolV bv => dsimp only at h; cases h
      | noneV => dsimp only at h; cases h
      | tupleV xs => dsimp only at h; cases h
      | dictV kvs => dsimp only at h; cases h
      | typed t2 d => dsimp only at h; cases h
    · rw [if_neg ht] at h
      rw [subTreeCore.eq_def, if_neg ht] at hnode
      rw [Option.some_inj] at hnode
      rw [← hnode]
      cases v with
      | listV xs =>
        rw [wfNode]
        split
        · exact h
        · exact clean_wfNodeList xs h
      | intV n => exact h
      | strV sv => exact h
      | bytesV bv => exact h
      | boolV bv => exact h
      | noneV => exact h
      | tupleV xs => exact h
      | dictV kvs => exact h
      | typed t2 d => rw [cleanV] at h; cases h
termination_by structural v => v

theorem subTreeChildren_wfNodeList : ∀ (xs : List PyVal) (b s : String) (a : ArrL),
    wfCoreList b s a xs = true → ∀ cs, subTreeChildren b s a xs = some cs →
      wfNodeList cs = true
  | [], _, _, _, _, cs, hcs => by
    rw [subTreeChildren, Option.some_inj] at hcs
    rw [← hcs]
    rfl
  | x :: xs, b, s, a, h, cs, hcs => by
    rw [wfCoreList, Bool.and_eq_true] at h
    rw [subTreeChildren] at hcs
    cases hc : subTreeCore b s a x with
    | none => rw [hc] at hcs; cases hcs
    | some c =>
      rw [hc] at hcs
      cases hrest : subTreeChildren b s a xs with
      | none => rw [hrest] at hcs; cases hcs
      | some rest =>
        rw [hrest, Option.some_inj] at hcs
        rw [← hcs, wfNodeList, Bool.and_eq_true]
        exact ⟨subTreeCore_wfNode x b s a h.1 c hc,
          subTreeChildren_wfNodeList xs b s a h.2 rest hrest⟩
termination_by structural l => l

end

theorem wfPair_node (dt : Option String) (v : PyVal) (node : PyVal)
    (hwf : wfPair dt v = true) (hnode : abi_sub_tree dt v = some node) :
    wfNode node = true := by
  cases dt with
  | none =>
    rw [abi_sub_tree, Option.some_inj] at hnode
    rw [← hnode, wfNode]
    exact hwf
  | some t =>
    rw [wfPair] at hwf
    by_cases hp : startsParen t = true
    · rw [if_pos hp] at hwf
      rw [Bool.and_eq_true] at hwf
      rw [abi_sub_tree, if_pos ⟨hp, hwf.1⟩, Option.some_inj] at hnode
      rw [← hnode]
      cases v with
      | tupleV xs => exact hwf.2
      | intV n => cases hwf.1
      | strV sv => cases hwf.1
      | bytesV bv => cases hwf.1
      | boolV bv => cases hwf.1
      | noneV => cases hwf.1
      | listV xs => cases hwf.1
      | dictV kvs => cases hwf.1
      | typed t2 d => cases hwf.1
    · rw [if_neg hp] at hwf
      have hcond : ¬(startsParen t = true ∧ v.isTuple = true) := fun hand => hp hand.1
      rw [abi_sub_tree, if_neg hcond] at hnode
      split at hwf
      · next c0 c1 c2 heq =>
        rw [heq] at hnode
        exact subTreeCore_wfNode v (String.mk [c0]) (String.mk [c1]) (.chs [c2])
          hwf node hnode
      · next hne =>
        split at hwf
        · cases hwf
        · next b2 s2 arr hpt =>
          have hred : (match t.toList with
              | [c0, c1, c2] =>
                subTreeCore (String.mk [c0]) (String.mk [c1]) (.chs [c2]) v
              | _ =>
                match process_type t with
                | none => none
                | some (b, s, arr) => subTreeCore b s (.lst arr) v)
              = subTreeCore b2 s2 (.lst arr) v := by
            split
            · next c0 c1 c2 heq => exact absurd heq (by exact fun hh => hne c0 c1 c2 hh)
            · rw [hpt]
          rw [hred] at hnode
          exact subTreeCore_wfNode v b2 s2 (.lst arr) hwf node hnode

theorem abi_data_tree_wfNode : ∀ (ts : List (Option String)) (ds : List PyVal),
    (∀ p ∈ ts.zip ds, wfPair p.1 p.2 = true) →
    ∀ tree, abi_data_tree ts ds = some tree → wfNodeList tree = true := by
  intro ts
  induction ts with
  | nil =>
    intro ds h tree htree
    rw [abi_data_tree, List.zip_nil_left] at htree
    simp only [List.mapM_nil, Option.pure_def, Option.some_inj] at htree
    rw [← htree]
    rfl
  | cons t ts ih =>
    intro ds h tree htree
    cases ds with
    | nil =>
      rw [abi_data_tree, List.zip_nil_right] at htree
      simp only [List.mapM_nil, Option.pure_def, Option.some_inj] at htree
      rw [← htree]
      rfl
    | cons d ds =>
      rw [abi_data_tree, List.zip_cons_cons, List.mapM_cons] at htree
      cases hst : abi_sub_tree t d with
      | none => rw [hst] at htree; cases htree
      | some node =>
        rw [hst] at htree
        cases hrest : (ts.zip ds).mapM (fun td => abi_sub_tree td.1 td.2) with
        | none => rw [hrest] at htree; cases htree
        | some tr =>
          rw [hrest] at htree
          have htr : tree = node :: tr := by
            have := htree
            simp only [Option.pure_def, Option.bind_eq_bind, Option.some_bind,
              Option.some_inj] at this
            exact this.symm
          rw [htr, wfNodeList, Bool.and_eq_true]
          refine ⟨wfPair_node t d node (h (t, d) (by simp)) hst, ?_⟩
          exact ih ds (fun p hp => h p (by simp [hp])) tr
            (by rw [abi_data_tree]; exact hrest)

mutual

theorem wfNode_map_eq : ∀ (v : PyVal) (f : String → PyVal → String × PyVal),
    (∀ t xs, f t (.listV xs) = (t, .listV xs)) → wfNode v = true →
    recursive_map (map_to_typed_data f) v = claimedLeafMap f v
  | .typed none d, f, hf, h => by
    rw [wfNode] at h
    rw [recursive_map_typed, clean_recursive_map d _ (map_to_typed_data_id f) h]
    rfl
  | .typed (some t) (.listV xs), f, hf, h => by
    rw [wfNode] at h
    by_cases hp : startsParen t = true
    · rw [if_pos hp] at h
      rw [recursive_map_typed, recursive_map_listV,
        show map_to_typed_data f (.listV (recursiveMapList (map_to_typed_data f) xs))
          = .listV (recursiveMapList (map_to_typed_data f) xs) from rfl,
        clean_recursiveMapList xs _ (map_to_typed_data_id f) h,
        map_to_typed_data, if_pos hp, claimedLeafMap, if_pos hp]
    · rw [if_neg hp] at h
      rw [recursive_map_typed, recursive_map_listV,
        show map_to_typed_data f (.listV (recursiveMapList (map_to_typed_data f) xs))
          = .listV (recursiveMapList (map_to_typed_data f) xs) from rfl,
        map_to_typed_data, if_neg hp, hf t _, claimedLeafMap, if_neg hp,
        wfNodeList_map_eq xs f hf h]
  | .typed (some t) (.intV n), f, hf, h => by
    rw [recursive_map_typed,
      clean_recursive_map _ _ (map_to_typed_data_id f) (by simpa [wfNode] using h)]
    rfl
  | .typed (some t) (.strV sv), f, hf, h => by
    rw [recursive_map_typed,
      clean_recursive_map _ _ (map_to_typed_data_id f) (by simpa [wfNode] using h)]
    rfl
  | .typed (some t) (.bytesV bv), f, hf, h => by
    rw [recursive_map_typed,
      clean_recursive_map _ _ (map_to_typed_data_id f) (by simpa [wfNode] using h)]
    rfl
  | .typed (some t) (.boolV bv), f, hf, h => by
    rw [recursive_map_typed,
      clean_recursive_map _ _ (map_to_typed_data_id f) (by simpa [wfNode] using h)]
    rfl
  | .typed (some t) .noneV, f, hf, h => by
    rw [recursive_map_typed,
      clean_recursive_map _ _ (map_to_typed_data_id f) (by simpa [wfNode] using h)]
    rfl
  | .typed (some t) (.tupleV xs), f, hf, h => by
    rw [recursive_map_typed,
      clean_recursive_map _ _ (map_to_typed_data_id f) (by simpa [wfNode] using h)]
    rfl
  | .typed (some t) (.dictV kvs), f, hf, h => by
    rw [recursive_map_typed,
      clean_recursive_map _ _ (map_to_typed_data_id f) (by simpa [wfNode] using h)]
    rfl
  | .typed (some t) (.typed t2 d), f, hf, h => by
    simp only [wfNode, cleanV] at h
    cases h
  | .listV xs, f, hf, h => by
    rw [clean_recursive_map _ _ (map_to_typed_data_id f) h,
      clean_claimedLeafMap _ f h]
  | .tupleV xs, f, hf, h => by
    rw [clean_recursive_map _ _ (map_to_typed_data_id f) h,
      clean_claimedLeafMap _ f h]
  | .dictV kvs, f, hf, h => by
    rw [clean_recursive_map _ _ (map_to_typed_data_id f) h,
      clean_claimedLeafMap _ f h]
  | .intV n, f, hf, h => rfl
  | .strV sv, f, hf, h => rfl
  | .bytesV bv, f, hf, h => rfl
  | .boolV bv, f, hf, h => rfl
  | .noneV, f, hf, h => rfl
termination_by structural v => v

theorem wfNodeList_map_eq : ∀ (xs : List PyVal)
    (f : String → PyVal → String × PyVal),
    (∀ t ys, f t (.listV ys) = (t, .listV ys)) → wfNodeList xs = true →
    recursiveMapList (map_to_typed_data f) xs = claimedLeafMapList f xs
  | [], _, _, _ => rfl
  | x :: xs, f, hf, h => by
    rw [wfNodeList, Bool.and_eq_true] at h
    rw [recursiveMapList, claimedLeafMapList, wfNode_map_eq x f hf h.1,
      wfNodeList_map_eq xs f hf h.2]
termination_by structural l => l

end

/-- C5, amended: on trees built by `abi_data_tree` from well-formed pairs,
and for normalizers that return list-valued data unchanged, `data_tree_map`
coincides with the claimed leaf-only walk: the normalizer is applied
exactly at typed leaf nodes with a plain (non-tuple, non-`None`) type,
opaque tuple leaves and `None`-typed nodes pass through, and the walk never
alters an opaque tuple leaf.  Without the list-identity proviso the claim
fails: the code applies the normalizer to every typed node bottom-up,
including the internal array nodes, not only at the leaves. -/
theorem C5_data_tree_map_amended (f : String → PyVal → String × PyVal)
    (hf : ∀ t xs, f t (.listV xs) = (t, .listV xs))
    (types : List (Option String)) (data : List PyVal) (tree : List PyVal)
    (hwf : ∀ p ∈ types.zip data, wfPair p.1 p.2 = true)
    (htree : abi_data_tree types data = some tree) :
    data_tree_map f (.listV tree) = claimedLeafMap f (.listV tree) := by
  have hnl := abi_data_tree_wfNode types data hwf tree htree
  rw [data_tree_map_listV, claimedLeafMap, wfNodeList_map_eq tree f hf hnl]

/-- C5 witness: a normalizer rewriting every non-list leaf value, run over
a tree with a scalar leaf and an array node — the code walk and the
claimed leaf-only walk agree. -/
theorem C5_data_tree_map_amended_witness :
    (∀ t xs, listKeepNormalizer t (.listV xs) = (t, .listV xs)) ∧
    (∀ p ∈ ([some "uint256", some "bool[2]"] : List (Option String)).zip
        ([.intV 5, .listV [.boolV true, .boolV false]] : List PyVal),
      wfPair p.1 p.2 = true) ∧
    abi_data_tree [some "uint256", some "bool[2]"]
        [.intV 5, .listV [.boolV true, .boolV false]]
      = some [.typed (some "uint256") (.intV 5),
          .typed (some "bool[2]") (.listV [.typed (some "bool") (.boolV true),
            .typed (some "bool") (.boolV false)])] ∧
    data_tree_map listKeepNormalizer
        (.listV [.typed (some "uint256") (.intV 5),
          .typed (some "bool[2]") (.listV [.typed (some "bool") (.boolV true),
            .typed (some "bool") (.boolV false)])])
      = claimedLeafMap listKeepNormalizer
          (.listV [.typed (some "uint256") (.intV 5),
            .typed (some "bool[2]") (.listV [.typed (some "bool") (.boolV true),
              .typed (some "bool") (.boolV false)])]) :=
  ⟨fun t xs => rfl, by decide, rfl,
    C5_data_tree_map_amended listKeepNormalizer (fun t xs => rfl)
      [some "uint256", some "bool[2]"] [.intV 5, .listV [.boolV true, .boolV false]]
      [.typed (some "uint256") (.intV 5),
        .typed (some "bool[2]") (.listV [.typed (some "bool") (.boolV true),
          .typed (some "bool") (.boolV false)])] (by decide) rfl⟩

/-- C5 counterexample: a normalizer keyed on the array type `bool[2]` is
applied by the code at the internal array node — the node's whole child
list is replaced by `7` — while the claimed leaf-only walk leaves the
array node's structure intact, so the two walks differ. -/
theorem C5_counterexample :
    abi_data_tree [some "bool[2]"] [.listV [.boolV true, .boolV false]]
      = some [.typed (some "bool[2]") (.listV [.typed (some "bool") (.boolV true),
          .typed (some "bool") (.boolV false)])] ∧
    data_tree_map (fun t v => if t = "bool[2]" then (t, .intV 7) else (t, v))
        (.listV [.typed (some "bool[2]") (.listV [.typed (some "bool") (.boolV true),
          .typed (some "bool") (.boolV false)])])
      = .listV [.typed (some "bool[2]") (.intV 7)] ∧
    claimedLeafMap (fun t v => if t = "bool[2]" then (t, .intV 7) else (t, v))
        (.listV [.typed (some "bool[2]") (.listV [.typed (some "bool") (.boolV true),
          .typed (some "bool") (.boolV false)])])
      = .listV [.typed (some "bool[2]") (.listV [.typed (some "bool") (.boolV true),
          .typed (some "bool") (.boolV false)])] ∧
    (PyVal.listV [.typed (some "bool[2]") (.intV 7)]
      ≠ .listV [.typed (some "bool[2]") (.listV [.typed (some "bool") (.boolV true),
          .typed (some "bool") (.boolV false)])]) := by
  refine ⟨rfl, rfl, rfl, ?_⟩
  intro hyp
  injection hyp with h1
  injection h1 with h2 h3
  injection h2 with h4 h5
  cases h5

/-! ## Claim C8: pipeline composability -/

mutual

theorem subTreeCore_rebuild (f : String → PyVal → String × PyVal)
    (hty : ∀ t v, (f t v).1 = t)
    (harr : ∀ t xs, f t (.listV xs) = (t, .listV xs))
    (hcl : ∀ t v, cleanV v = true → cleanV (f t v).2 = true) :
    ∀ (v : PyVal) (b s : String) (a : ArrL), wfCore b s a v = true →
    ∃ node, subTreeCore b s a v = some node ∧
      subTreeCore b s a
        (recursive_map strip_abi_type (recursive_map (map_to_typed_data f) node))
        = some (recursive_map (map_to_typed_data f) node)
  | v, b, s, a, h => by
    rw [wfCore.eq_def] at h
    by_cases ht : a.truthy = true
    · rw [if_pos ht] at h
      cases v with
      | listV xs =>
        dsimp only at h
        rw [Bool.and_eq_true, Bool.not_eq_true'] at h
        obtain ⟨cs, hcs, hreb⟩ :=
          subTreeChildren_rebuild f hty harr hcl xs b s a.dropOuter h.2
        refine ⟨.typed (some (collapseA b s a)) (.listV cs), ?_, ?_⟩
        · rw [subTreeCore, if_pos ht, hcs]
          rfl
        · rw [recursive_map_typed, recursive_map_listV,
            show map_to_typed_data f
                (.listV (recursiveMapList (map_to_typed_data f) cs))
              = .listV (recursiveMapList (map_to_typed_data f) cs) from rfl,
            map_to_typed_data, if_neg (by rw [h.1]; exact fun hc => Bool.noConfusion hc),
            harr, recursive_map_typed, recursive_map_listV,
            show strip_abi_type (.listV (recursiveMapList strip_abi_type
                (recursiveMapList (map_to_typed_data f) cs)))
              = .listV (recursiveMapList strip_abi_type
                (recursiveMapList (map_to_typed_data f) cs)) from rfl,
            show strip_abi_type (.typed (some (collapseA b s a))
                (.listV (recursiveMapList strip_abi_type
                  (recursiveMapList (map_to_typed_data f) cs))))
              = .listV (recursiveMapList strip_abi_type
                (recursiveMapList (map_to_typed_data f) cs)) from rfl,
            subTreeCore, if_pos ht, hreb]
          rfl
      | intV n => dsimp only at h; cases h
      | strV sv => dsimp only at h; cases h
      | bytesV bv => dsimp only at h; cases h
      | boolV bv => dsimp only at h; cases h
      | noneV => dsimp only at h; cases h
      | tupleV xs => dsimp only at h; cases h
      | dictV kvs => dsimp only at h; cases h
      | typed t2 d => dsimp only at h; cases h
    · rw [if_neg ht] at h
      refine ⟨.typed (some (collapseA b s a)) v, ?_, ?_⟩
      · rw [subTreeCore.eq_def, if_neg ht]
      · rw [recursive_map_typed,
          clean_recursive_map v _ (map_to_typed_data_id f) h,
          map_to_typed_data]
        by_cases hp : startsParen (collapseA b s a) = true
        · rw [if_pos hp, recursive_map_typed,
            clean_recursive_map v strip_abi_type strip_abi_type_id h,
            show strip_abi_type (.typed (some (collapseA b s a)) v) = v from rfl,
            subTreeCore.eq_def, if_neg ht]
        · rw [if_neg hp]
          cases hfv : f (collapseA b s a) v with
          | mk t2 d2 =>
            have ht2 : t2 = collapseA b s a := by
              have := hty (collapseA b s a) v
              rw [hfv] at this
              exact this
            have hd2 : cleanV d2 = true := by
              have := hcl (collapseA b s a) v h
              rw [hfv] at this
              exact this
            dsimp only
            rw [recursive_map_typed,
              clean_recursive_map d2 strip_abi_type strip_abi_type_id hd2,
              show strip_abi_type (.typed (some t2) d2) = d2 from rfl,
              subTreeCore.eq_def, if_neg ht, ht2]
termination_by structural v => v

theorem subTreeChildren_rebuild (f : String → PyVal → String × PyVal)
    (hty : ∀ t v, (f t v).1 = t)
    (harr : ∀ t xs, f t (.listV xs) = (t, .listV xs))
    (hcl : ∀ t v, cleanV v = true → cleanV (f t v).2 = true) :
    ∀ (xs : List PyVal) (b s : String) (a : ArrL), wfCoreList b s a xs = true →
    ∃ cs, subTreeChildren b s a xs = some cs ∧
      subTreeChildren b s a
        (recursiveMapList strip_abi_type (recursiveMapList (map_to_typed_data f) cs))
        = some (recursiveMapList (map_to_typed_data f) cs)
  | [], _, _, _, _ => ⟨[], rfl, rfl⟩
  | x :: xs, b, s, a, h => by
    rw [wfCoreList, Bool.and_eq_true] at h
    obtain ⟨c, hc, hrc⟩ := subTreeCore_rebuild f hty harr hcl x b s a h.1
    obtain ⟨cs, hcs, hrcs⟩ := subTreeChildren_rebuild f hty harr hcl xs b s a h.2
    refine ⟨c :: cs, ?_, ?_⟩
    · rw [subTreeChildren, hc, hcs]
    · rw [recursiveMapList, recursiveMapList, subTreeChildren, hrc, hrcs]
termination_by structural l => l

end

theorem abi_sub_tree_rebuild (f : String → PyVal → String × PyVal)
    (hty : ∀ t v, (f t v).1 = t)
    (harr : ∀ t xs, f t (.listV xs) = (t, .listV xs))
    (hcl : ∀ t v, cleanV v = true → cleanV (f t v).2 = true)
    (dt : Option String) (v : PyVal) (h : wfPair dt v = true) :
    ∃ node, abi_sub_tree dt v = some node ∧
      abi_sub_tree dt
        (recursive_map strip_abi_type (recursive_map (map_to_typed_data f) node))
        = some (recursive_map (map_to_typed_data f) node) := by
  cases dt with
  | none =>
    refine ⟨.typed none v, rfl, ?_⟩
    rw [recursive_map_typed,
      clean_recursive_map v _ (map_to_typed_data_id f) (by simpa [wfPair] using h),
      show map_to_typed_data f (.typed none v) = .typed none v from rfl,
      recursive_map_typed,
      clean_recursive_map v strip_abi_type strip_abi_type_id
        (by simpa [wfPair] using h),
      show strip_abi_type (.typed none v) = v from rfl]
    rfl
  | some t =>
    rw [wfPair] at h
    by_cases hp : startsParen t = true
    · rw [if_pos hp, Bool.and_eq_true] at h
      refine ⟨.typed (some t) v, ?_, ?_⟩
      · rw [abi_sub_tree, if_pos ⟨hp, h.1⟩]
      · rw [recursive_map_typed,
          clean_recursive_map v _ (map_to_typed_data_id f) h.2,
          map_to_typed_data, if_pos hp, recursive_map_typed,
          clean_recursive_map v strip_abi_type strip_abi_type_id h.2,
          show strip_abi_type (.typed (some t) v) = v from rfl,
          abi_sub_tree, if_pos ⟨hp, h.1⟩]
    · rw [if_neg hp] at h
      have hcond : ∀ w : PyVal, ¬(startsParen t = true ∧ w.isTuple = true) :=
        fun w hand => hp hand.1
      split at h
      · next c0 c1 c2 heq =>
        obtain ⟨node, hnode, hreb⟩ := subTreeCore_rebuild f hty harr hcl v
          (String.mk [c0]) (String.mk [c1]) (.chs [c2]) h
        refine ⟨node, ?_, ?_⟩
        · rw [abi_sub_tree, if_neg (hcond v), heq]
          exact hnode
        · rw [abi_sub_tree, if_neg (hcond _), heq]
          exact hreb
      · next hne =>
        split at h
        · cases h
        · next b2 s2 arr hpt =>
          obtain ⟨node, hnode, hreb⟩ :=
            subTreeCore_rebuild f hty harr hcl v b2 s2 (.lst arr) h
          have hred : ∀ w : PyVal, (match t.toList with
              | [c0, c1, c2] =>
                subTreeCore (String.mk [c0]) (String.mk [c1]) (.chs [c2]) w
              | _ =>
                match process_type t with
                | none => none
                | some (b, s, arr) => subTreeCore b s (.lst arr) w)
              = subTreeCore b2 s2 (.lst arr) w := by
            intro w
            split
            · next c0 c1 c2 heq => exact absurd heq (by exact fun hh => hne c0 c1 c2 hh)
            · rw [hpt]
          refine ⟨node, ?_, ?_⟩
          · rw [abi_sub_tree, if_neg (hcond v), hred v]
            exact hnode
          · rw [abi_sub_tree, if_neg (hcond _), hred _]
            exact hreb

theorem abi_data_tree_rebuild (f : String → PyVal → String × PyVal)
    (hty : ∀ t v, (f t v).1 = t)
    (harr : ∀ t xs, f t (.listV xs) = (t, .listV xs))
    (hcl : ∀ t v, cleanV v = true → cleanV (f t v).2 = true) :
    ∀ (ts : List (Option String)) (ds : List PyVal),
    (∀ p ∈ ts.zip ds, wfPair p.1 p.2 = true) →
    ∃ tree, abi_data_tree ts ds = some tree ∧
      abi_data_tree ts (recursiveMapList strip_abi_type
        (recursiveMapList (map_to_typed_data f) tree))
        = some (recursiveMapList (map_to_typed_data f) tree) := by
  intro ts
  induction ts with
  | nil => exact fun ds h => ⟨[], rfl, rfl⟩
  | cons t ts ih =>
    intro ds h
    cases ds with
    | nil => exact ⟨[], rfl, rfl⟩
    | cons d ds =>
      obtain ⟨node, hnode, hrnode⟩ :=
        abi_sub_tree_rebuild f hty harr hcl t d (h (t, d) (by simp))
      obtain ⟨tree, htree, hrtree⟩ := ih ds (fun p hp => h p (by simp [hp]))
      refine ⟨node :: tree, ?_, ?_⟩
      · rw [abi_data_tree] at htree ⊢
        rw [List.zip_cons_cons, List.mapM_cons, hnode, htree]
        rfl
      · rw [abi_data_tree] at hrtree ⊢
        rw [recursiveMapList, recursiveMapList, List.zip_cons_cons, List.mapM_cons,
          hrnode, hrtree]
        rfl

/-- C8, amended: for a first normalizer that preserves the stored type,
returns list-valued data unchanged and produces clean values from clean
values, and an arbitrary second normalizer, running the two-stage pipeline
equals running the stages as separate `map_abi_data` calls on the
intermediate result (over well-formed types/data pairs).  The provisos are
needed: the second call re-decorates the stripped intermediate data from
the caller's type strings, so a first stage that changes a node's stored
type is visible to the second normalizer only in the one-call pipeline. -/
theorem C8_map_abi_data_amended (f g : String → PyVal → String × PyVal)
    (hty : ∀ t v, (f t v).1 = t)
    (harr : ∀ t xs, f t (.listV xs) = (t, .listV xs))
    (hcl : ∀ t v, cleanV v = true → cleanV (f t v).2 = true)
    (types : List (Option String)) (data : List PyVal)
    (hwf : ∀ p ∈ types.zip data, wfPair p.1 p.2 = true) :
    ∃ mid, map_abi_data [f] types data = some (.listV mid) ∧
      map_abi_data [f, g] types data = map_abi_data [g] types mid := by
  obtain ⟨tree, htree, hreb⟩ := abi_data_tree_rebuild f hty harr hcl types data hwf
  refine ⟨recursiveMapList strip_abi_type
    (recursiveMapList (map_to_typed_data f) tree), ?_, ?_⟩
  · rw [map_abi_data, htree, Option.map_some', List.foldl_cons, List.foldl_nil,
      data_tree_map_listV, stripTypes_listV]
  · rw [map_abi_data, htree, Option.map_some', map_abi_data, hreb, Option.map_some']
    simp only [List.foldl_cons, List.foldl_nil]
    rw [data_tree_map_listV]

/-- C8 witness: a type-preserving first stage that increments integer
leaves, composed with a second stage that rewrites values, over a scalar
and an array entry. -/
theorem C8_map_abi_data_amended_witness :
    (∀ t v, (incIntNormalizer t v).1 = t) ∧
    (∀ t xs, incIntNormalizer t (.listV xs) = (t, .listV xs)) ∧
    (∀ t v, cleanV v = true → cleanV (incIntNormalizer t v).2 = true) ∧
    (∀ p ∈ ([some "uint256", some "bool[2]"] : List (Option String)).zip
        ([.intV 5, .listV [.boolV true, .boolV false]] : List PyVal),
      wfPair p.1 p.2 = true) ∧
    (∃ mid, map_abi_data [incIntNormalizer] [some "uint256", some "bool[2]"]
        [.intV 5, .listV [.boolV true, .boolV false]] = some (.listV mid) ∧
      map_abi_data [incIntNormalizer, fun t v => (t, .boolV (t = "uint256"))]
          [some "uint256", some "bool[2]"]
          [.intV 5, .listV [.boolV true, .boolV false]]
        = map_abi_data [fun t v => (t, .boolV (t = "uint256"))]
            [some "uint256", some "bool[2]"] mid) :=
  ⟨fun t v => rfl, fun t xs => rfl,
   fun t v h => by
     cases v with
     | intV n => exact rfl
     | strV s => exact h
     | bytesV b => exact h
     | boolV b => exact h
     | noneV => exact h
     | listV xs => exact h
     | tupleV xs => exact h
     | dictV kvs => exact h
     | typed t2 d => exact h,
   by decide,
   C8_map_abi_data_amended incIntNormalizer (fun t v => (t, .boolV (t = "uint256")))
     (fun t v => rfl) (fun t xs => rfl)
     (fun t v h => by
       cases v with
       | intV n => exact rfl
       | strV s => exact h
       | bytesV b => exact h
       | boolV b => exact h
       | noneV => exact h
       | listV xs => exact h
       | tupleV xs => exact h
       | dictV kvs => exact h
       | typed t2 d => exact h)
     [some "uint256", some "bool[2]"] [.intV 5, .listV [.boolV true, .boolV false]]
     (by decide)⟩

/-- C8 counterexample: a first normalizer that rewrites the stored type to
`bool` is visible to the second normalizer in the one-call pipeline, but
the staged run re-decorates from the caller's `uint256`, so the two runs
disagree — pipeline composability fails for type-changing normalizers. -/
theorem C8_counterexample :
    map_abi_data [fun _ v => ("bool", v),
        fun t _ => (t, if t = "bool" then PyVal.intV 1 else PyVal.intV 2)]
        [some "uint256"] [.intV 5]
      = some (.listV [.intV 1]) ∧
    map_abi_data [fun _ v => ("bool", v)] [some "uint256"] [.intV 5]
      = some (.listV [.intV 5]) ∧
    map_abi_data [fun t _ => (t, if t = "bool" then PyVal.intV 1 else PyVal.intV 2)]
        [some "uint256"] [.intV 5]
      = some (.listV [.intV 2]) ∧
    some (PyVal.listV [.intV 1]) ≠ some (PyVal.listV [.intV 2]) := by
  refine ⟨rfl, rfl, rfl, ?_⟩
  intro hyp
  injection hyp with h1
  injection h1 with h2
  injection h2 with h3 h4
  injection h3 with h5
  exact absurd h5 (by decide)

end Web3Abi
